import Mathlib

/-!
Verification of the structural merge engine of swagger2postman
(src/lib/merger.ts) against its specification.

The engine merges two trees of named nodes: a "swagger" (incoming) tree and
a "postman" (authoritative) tree, under one of three merge modes.  We embed
the JavaScript source shallowly:

* JavaScript values reachable by the attribute merge (deepMerge) are modelled
  by the inductive type JVal; JavaScript objects are insertion-ordered
  association lists with unique keys, JavaScript Map objects likewise
  (Map.set keeps the original position of an existing key, appends new keys).
* Collection items (interface Item of merger.ts) are modelled by the nested
  inductive Item: a name, the attribute record used by the merge
  (_postman_id, id, request, response, description, _source, _merged) and the
  child list.  The code treats an absent child list and an empty child list
  identically (the test is: !item.item || item.item.length === 0, and
  item.item && item.item.length > 0), so children are modelled as a plain
  list, [] meaning leaf.
* Array.prototype.sort with the comparator (a, b) => a.name.localeCompare(b.name)
  is required by the JavaScript specification to be a stable sort; any two
  stable sorts agree, so it is modelled by insertion sort (List.insertionSort)
  over a total, transitive byte-wise name order standing in for the
  localeCompare order.
* mergeCollectionMaps recurses through the nested folder maps; the Lean
  definition takes an explicit fuel argument so that it is structurally
  recursive and kernel-computable.  The public definition supplies fuel
  strictly larger than the folder depth of both maps, and the theorem
  mergeCollectionMaps_eq proves the intended (source-shaped) recurrence,
  so the fuel is semantically invisible.
-/

/-- JavaScript values, as far as the attribute merge inspects them.
Numbers are modelled as integers (no claim depends on float arithmetic). -/
inductive JVal : Type where
  | undef
  | null
  | bool (b : Bool)
  | num (n : Int)
  | str (s : String)
  | arr (elems : List JVal)
  | obj (fields : List (String × JVal))

mutual
/-- Structural equality test for JVal (JavaScript object-literal equality at
the granularity the merge needs; key sets of the collections involved are
strings and plain data). -/
def beqJVal : JVal → JVal → Bool
  | .undef, .undef => true
  | .null, .null => true
  | .bool b, .bool b' => b == b'
  | .num n, .num n' => n == n'
  | .str s, .str s' => s == s'
  | .arr es, .arr es' => beqJL es es'
  | .obj fs, .obj fs' => beqJF fs fs'
  | _, _ => false
def beqJL : List JVal → List JVal → Bool
  | [], [] => true
  | v :: vs, w :: ws => beqJVal v w && beqJL vs ws
  | _, _ => false
def beqJF : List (String × JVal) → List (String × JVal) → Bool
  | [], [] => true
  | (k, v) :: vs, (k', w) :: ws => k == k' && beqJVal v w && beqJF vs ws
  | _, _ => false
end

mutual
theorem beqJVal_iff : ∀ (x y : JVal), beqJVal x y = true ↔ x = y
  | .undef, y => by cases y <;> simp [beqJVal]
  | .null, y => by cases y <;> simp [beqJVal]
  | .bool b, y => by cases y <;> simp [beqJVal]
  | .num n, y => by cases y <;> simp [beqJVal]
  | .str s, y => by cases y <;> simp [beqJVal]
  | .arr es, .arr es' => by
    simp only [beqJVal, JVal.arr.injEq]
    exact beqJL_iff es es'
  | .arr _, .undef => by simp [beqJVal]
  | .arr _, .null => by simp [beqJVal]
  | .arr _, .bool _ => by simp [beqJVal]
  | .arr _, .num _ => by simp [beqJVal]
  | .arr _, .str _ => by simp [beqJVal]
  | .arr _, .obj _ => by simp [beqJVal]
  | .obj fs, .obj fs' => by
    simp only [beqJVal, JVal.obj.injEq]
    exact beqJF_iff fs fs'
  | .obj _, .undef => by simp [beqJVal]
  | .obj _, .null => by simp [beqJVal]
  | .obj _, .bool _ => by simp [beqJVal]
  | .obj _, .num _ => by simp [beqJVal]
  | .obj _, .str _ => by simp [beqJVal]
  | .obj _, .arr _ => by simp [beqJVal]
theorem beqJL_iff : ∀ (xs ys : List JVal), beqJL xs ys = true ↔ xs = ys
  | [], [] => by simp [beqJL]
  | [], _ :: _ => by simp [beqJL]
  | _ :: _, [] => by simp [beqJL]
  | x :: xs, y :: ys => by
    simp only [beqJL, Bool.and_eq_true, List.cons.injEq]
    rw [beqJVal_iff x y, beqJL_iff xs ys]
theorem beqJF_iff : ∀ (xs ys : List (String × JVal)), beqJF xs ys = true ↔ xs = ys
  | [], [] => by simp [beqJF]
  | [], _ :: _ => by simp [beqJF]
  | _ :: _, [] => by simp [beqJF]
  | (k, x) :: xs, (k', y) :: ys => by
    simp only [beqJF, Bool.and_eq_true, List.cons.injEq, Prod.mk.injEq, beq_iff_eq]
    rw [beqJVal_iff x y, beqJF_iff xs ys]
end

instance : DecidableEq JVal := fun x y => decidable_of_iff _ (beqJVal_iff x y)

instance : BEq JVal := ⟨beqJVal⟩

instance : LawfulBEq JVal where
  eq_of_beq h := (beqJVal_iff _ _).mp h
  rfl := (beqJVal_iff _ _).mpr rfl

/-- JavaScript truthiness. -/
def truthy : JVal → Bool
  | .undef | .null => false
  | .bool b => b
  | .num n => n != 0
  | .str s => s != ""
  | .arr _ => true
  | .obj _ => true

/-- Property read obj[k]; undefined when absent or when the value is not an
object with that key. -/
def getF (fs : List (String × JVal)) (k : String) : Option JVal :=
  match fs.find? (fun pr => pr.1 == k) with
  | some pr => some pr.2
  | none => none

/-- Property write obj[k] = v on a JavaScript object: an existing key keeps
its position, a new key is appended. -/
def setF (fs : List (String × JVal)) (k : String) (v : JVal) : List (String × JVal) :=
  if fs.any (fun pr => pr.1 == k) then fs.map (fun pr => if pr.1 == k then (k, v) else pr)
  else fs ++ [(k, v)]

/-- Index-keyed fields of an array, as produced by spreading or for-in
enumeration of a JavaScript array. -/
def idxFields (i : Nat) : List JVal → List (String × JVal)
  | [] => []
  | v :: rest => (toString i, v) :: idxFields (i + 1) rest

/-- Index-keyed character fields of a string, as produced by spreading a
JavaScript string into an object literal. -/
def idxChars (i : Nat) : List Char → List (String × JVal)
  | [] => []
  | c :: rest => (toString i, .str (String.mk [c])) :: idxChars (i + 1) rest

/-- The own enumerable fields a value contributes when spread into an object
literal, {...target}: objects give their fields, arrays and strings their
index properties, other primitives nothing. -/
def objF : JVal → List (String × JVal)
  | .obj fs => fs
  | .arr es => idxFields 0 es
  | .str s => idxChars 0 s.data
  | _ => []

/-- One argument of Array.prototype.concat: an array argument is spread one
level (its elements are appended), any other value is appended as itself. -/
def concatSpread : JVal → List JVal
  | .arr xs => xs
  | v => [v]

/-- item.key of a query-parameter entry (undefined when the entry is not an
object carrying a key field). -/
def jsKey (v : JVal) : JVal :=
  (getF (objF v) "key").getD .undef

mutual
/--
deepMerge of merger.ts lines 35-62.

function deepMerge(target, source):
  if (!source) return target; if (!target) return source;
  result = {...target};
  for key in source:
    if source[key] is a non-null object:
      if Array.isArray(source[key]):
        if key === "query": result[key] = source[key].concat(...newItems),
          where newItems are the entries of target[key] whose item.key is
          not among source[key]'s item.keys (new Set uses SameValueZero
          equality; the keys occurring in these collections are plain data,
          modelled by structural equality); concat spreads an array-valued
          argument one level, modelled by concatSpread;
        else result[key] = source[key];
      else result[key] = deepMerge(result[key], source[key]);
    else if source[key] !== undefined: result[key] = source[key];
  return result;

dmLoop walks the source fields, threading the result object; dmLoopArr is
the same walk for an array source, whose for-in keys are the decimal index
strings (never equal to "query").  A truthy primitive source has no own
enumerable properties, so the loop body never runs and the copy of target
is returned.  In the query branch, target[key]?.filter(...) || [] yields []
when target[key] is absent or null; a non-null non-array there would make
the JavaScript throw and is outside the shapes the collections contain.
-/
def deepMerge (target source : JVal) : JVal :=
  match source with
  | .obj sfs =>
    if truthy target = false then source
    else .obj (dmLoop (objF target) (objF target) sfs)
  | .arr es =>
    if truthy target = false then source
    else .obj (dmLoopArr (objF target) (objF target) 0 es)
  | other =>
    if truthy other = false then target
    else if truthy target = false then other
    else .obj (objF target)
termination_by structural source
def dmLoop (tfs acc : List (String × JVal)) (l : List (String × JVal)) :
    List (String × JVal) :=
  match l with
  | [] => acc
  | (k, sv) :: rest =>
    dmLoop tfs
      (match sv with
       | .obj _ => setF acc k (deepMerge ((getF acc k).getD .undef) sv)
       | .arr es =>
         if k == "query" then
           let existingKeys := es.map jsKey
           let newItems :=
             match (getF tfs k).getD .undef with
             | .arr tes => tes.filter (fun itv => !(existingKeys.contains (jsKey itv)))
             | _ => []
           setF acc k (.arr (es ++ newItems.flatMap concatSpread))
         else setF acc k sv
       | .undef => acc
       | _ => setF acc k sv)
      rest
termination_by structural l
def dmLoopArr (tfs acc : List (String × JVal)) (i : Nat) (l : List JVal) :
    List (String × JVal) :=
  match l with
  | [] => acc
  | sv :: rest =>
    dmLoopArr tfs
      (match sv with
       | .obj _ => setF acc (toString i) (deepMerge ((getF acc (toString i)).getD .undef) sv)
       | .arr _ => setF acc (toString i) sv
       | .undef => acc
       | _ => setF acc (toString i) sv)
      (i + 1) rest
termination_by structural l
end

/-- Byte-wise (code-point-wise) string order, standing in for the total
order induced by a.name.localeCompare(b.name). -/
def charsLe : List Char → List Char → Bool
  | [], _ => true
  | _ :: _, [] => false
  | a :: as, b :: bs =>
    if a.toNat < b.toNat then true
    else if b.toNat < a.toNat then false
    else charsLe as bs

def strLe (a b : String) : Bool := charsLe a.data b.data

/-- The three merge modes of merger.ts (enum MergeMode). -/
inductive MergeMode : Type where
  | preservePostman
  | preserveSwagger
  | replace
deriving DecidableEq, Repr

/-- The attribute record of an item: the fields of interface Item that the
merge reads or writes besides name and the child list. -/
structure Attrs where
  pid : Option String
  id : Option String
  request : JVal
  response : Option (List JVal)
  description : Option String
  src : Option String
  merged : Bool
deriving DecidableEq

/-- A collection item (interface Item of merger.ts): endpoint when sub = [],
folder when sub is nonempty. -/
inductive Item : Type where
  | mk (name : String) (attrs : Attrs) (sub : List Item)

def Item.name : Item → String
  | .mk n _ _ => n

def Item.attrs : Item → Attrs
  | .mk _ a _ => a

def Item.sub : Item → List Item
  | .mk _ _ s => s

mutual
def beqItem : Item → Item → Bool
  | .mk n a s, .mk n' a' s' => n == n' && a == a' && beqItems s s'
def beqItems : List Item → List Item → Bool
  | [], [] => true
  | x :: xs, y :: ys => beqItem x y && beqItems xs ys
  | _, _ => false
end

mutual
theorem beqItem_iff : ∀ (x y : Item), beqItem x y = true ↔ x = y
  | .mk n a s, .mk n' a' s' => by
    simp only [beqItem, Bool.and_eq_true, beq_iff_eq, Item.mk.injEq]
    rw [beqItems_iff s s']
    tauto
theorem beqItems_iff : ∀ (xs ys : List Item), beqItems xs ys = true ↔ xs = ys
  | [], [] => by simp [beqItems]
  | [], _ :: _ => by simp [beqItems]
  | _ :: _, [] => by simp [beqItems]
  | x :: xs, y :: ys => by
    simp only [beqItems, Bool.and_eq_true, List.cons.injEq]
    rw [beqItem_iff x y, beqItems_iff xs ys]
end

instance : DecidableEq Item := fun x y => decidable_of_iff _ (beqItem_iff x y)

/-- The comparator-induced order on items: ascending name. -/
def byName (a b : Item) : Bool := strLe a.name b.name

/-- result.sort((a, b) => a.name.localeCompare(b.name)) — a stable sort by
ascending name (stable by the ECMAScript specification; all stable sorts
agree, insertion sort is the kernel-computable one). -/
def sortByName (l : List Item) : List Item :=
  l.insertionSort (fun a b => byName a b = true)

mutual
/-- Provenance tagging performed by processItems: item._source = source on
every node it visits (it visits the whole tree). -/
def tagTree (source : String) : Item → Item
  | .mk n a sub => .mk n { a with src := some source } (tagTrees source sub)
def tagTrees (source : String) : List Item → List Item
  | [] => []
  | it :: rest => tagTree source it :: tagTrees source rest
end

mutual
/-- Folder depth of an item / item list (1 + depth of children; used only to
bound the recursion of mergeCollectionMaps). -/
def depthI : Item → Nat
  | .mk _ _ sub => 1 + depthL sub
def depthL : List Item → Nat
  | [] => 0
  | it :: rest => max (depthI it) (depthL rest)
end

/-- One level of the collection map (interface CollectionMap): the endpoint
items and the folders of the level, keyed by name, in insertion order.  The
nested per-folder map stored by the source is recomputed from the folder
item's children where it is consumed, which yields the same map. -/
structure CMap : Type where
  items : List (String × Item)
  folders : List (String × Item)
deriving DecidableEq

/-- Map.get. -/
def lookupA {α : Type} (l : List (String × α)) (k : String) : Option α :=
  match l.find? (fun pr => pr.1 == k) with
  | some pr => some pr.2
  | none => none

/-- Map.set: replace in place when the key exists, append otherwise. -/
def upsert {α : Type} (l : List (String × α)) (k : String) (v : α) : List (String × α) :=
  if l.any (fun pr => pr.1 == k) then l.map (fun pr => if pr.1 == k then (k, v) else pr)
  else l ++ [(k, v)]

/-- The per-level indexing loop of processItems (merger.ts lines 122-148),
acting on already provenance-tagged items: an item with empty children goes
into the items map, one with nonempty children into the folders map. -/
def levelMapGo (acc : CMap) : List Item → CMap
  | [] => acc
  | it :: rest =>
    levelMapGo
      (if it.sub.isEmpty then { acc with items := upsert acc.items it.name it }
       else { acc with folders := upsert acc.folders it.name it })
      rest

def levelMap (its : List Item) : CMap := levelMapGo ⟨[], []⟩ its

/-- buildCollectionMap on a well-shaped item list: tag the tree with its
provenance, then index the top level. -/
def buildMapL (source : String) (its : List Item) : CMap :=
  levelMap (tagTrees source its)

/-- x || y on a response field: a present response is an array, always
truthy; absent (undefined or null) falls back. -/
def jsOrResp (a b : Option (List JVal)) : Option (List JVal) :=
  match a with
  | some l => some l
  | none => b

/-- x || y on a string-valued field: the empty string is falsy. -/
def jsOrStr (a b : Option String) : Option String :=
  match a with
  | some st => if st == "" then b else some st
  | none => b

/-- Truthiness of an optional string field (used by processIds and by the
fallbacks of mergeItems). -/
def truthyStr (a : Option String) : Bool :=
  match a with
  | some st => st != ""
  | none => false

/--
mergeItems of merger.ts lines 231-257: start from {...postmanItem}, then per
mode overwrite request (deep merge, winner last), response (winner falling
back on absence), description (winner falling back on falsiness); always
take _postman_id from the postman item, id = postmanItem.id || swaggerItem.id,
and set _merged.  The switch treats every mode other than PRESERVE_SWAGGER
by its default branch.
-/
def mergeItems (p s : Item) (mode : MergeMode) : Item :=
  match mode with
  | .preserveSwagger =>
    .mk p.name
      { pid := p.attrs.pid
        id := jsOrStr p.attrs.id s.attrs.id
        request := deepMerge p.attrs.request s.attrs.request
        response := jsOrResp s.attrs.response p.attrs.response
        description := jsOrStr s.attrs.description p.attrs.description
        src := p.attrs.src
        merged := true }
      p.sub
  | _ =>
    .mk p.name
      { pid := p.attrs.pid
        id := jsOrStr p.attrs.id s.attrs.id
        request := deepMerge s.attrs.request p.attrs.request
        response := jsOrResp p.attrs.response s.attrs.response
        description := jsOrStr p.attrs.description s.attrs.description
        src := p.attrs.src
        merged := true }
      p.sub

/-- The merged folder of merger.ts lines 196-200: {...postmanFolder.folderItem}
with _merged set and the child list replaced by the recursive merge. -/
def mergedFolder (pf : Item) (sub : List Item) : Item :=
  .mk pf.name { pf.attrs with merged := true } sub

/-- The names marked processed by the postman-side loops of
mergeCollectionMaps: postman item names matched by a swagger item, and
postman folder names matched by a swagger folder (one shared set). -/
def processedNames (p s : CMap) : List String :=
  (p.items.filterMap (fun pr => if (lookupA s.items pr.1).isSome then some pr.1 else none)) ++
    (p.folders.filterMap (fun pr => if (lookupA s.folders pr.1).isSome then some pr.1 else none))

/--
mergeCollectionMaps of merger.ts lines 153-226, with explicit fuel making
the recursion through matched folders structural.  REPLACE returns the
swagger items then folders, sorted.  Otherwise: postman items (merged with
a matching swagger item, else kept), postman folders (matched folders get
the recursively merged child list, else kept), then unprocessed swagger
items and folders, all sorted by name at the end.
-/
def mergeCM (fuel : Nat) (p s : CMap) (mode : MergeMode) : List Item :=
  match mode with
  | .replace => sortByName (s.items.map (fun pr => pr.2) ++ s.folders.map (fun pr => pr.2))
  | _ =>
    match fuel with
    | 0 => []
    | fuel' + 1 =>
      let part1 := p.items.map (fun pr =>
        match lookupA s.items pr.1 with
        | some sit => mergeItems pr.2 sit mode
        | none => pr.2)
      let part2 := p.folders.map (fun pr =>
        match lookupA s.folders pr.1 with
        | some sf => mergedFolder pr.2 (mergeCM fuel' (levelMap pr.2.sub) (levelMap sf.sub) mode)
        | none => pr.2)
      let processed := processedNames p s
      let part3 := (s.items.filter (fun pr => !(processed.contains pr.1))).map (fun pr => pr.2)
      let part4 := (s.folders.filter (fun pr => !(processed.contains pr.1))).map (fun pr => pr.2)
      sortByName (part1 ++ part2 ++ part3 ++ part4)

/-- Folder depth of a map (what the recursion of mergeCollectionMaps
descends through). -/
def depthM (m : CMap) : Nat := depthL (m.folders.map (fun pr => pr.2))

/-- mergeCollectionMaps with always-sufficient fuel; the recurrence proved
below (mergeCollectionMaps_eq) matches the source shape. -/
def mergeCollectionMaps (p s : CMap) (mode : MergeMode) : List Item :=
  mergeCM (depthM p + depthM s + 1) p s mode

/-- The tree-level merge of the two node lists, as performed by merge():
index both trees (tagging them with their provenance) and reconcile,
postman side first. -/
def mergeTrees (swaggerItems postmanItems : List Item) (mode : MergeMode) : List Item :=
  mergeCollectionMaps (buildMapL "postman" postmanItems) (buildMapL "swagger" swaggerItems) mode

mutual
/-- processIds of merger.ts lines 262-280: for every node, when _postman_id
is truthy copy it into id; recurse into children. -/
def normIds : Item → Item
  | .mk n a sub =>
    .mk n (if truthyStr a.pid then { a with id := a.pid } else a) (normIdsL sub)
def normIdsL : List Item → List Item
  | [] => []
  | it :: rest => normIds it :: normIdsL rest
end

/-- The full pipeline of merge() on well-shaped inputs, as far as the node
trees are concerned: build both maps, reconcile, then normalize ids. -/
def mergeFull (swaggerItems postmanItems : List Item) (mode : MergeMode) : List Item :=
  normIdsL (mergeTrees swaggerItems postmanItems mode)

/-- The side whose attributes win the attribute merge of mergeItems:
the swagger item under PRESERVE_SWAGGER, the postman item otherwise. -/
def winnerOf (p s : Item) : MergeMode → Item
  | .preserveSwagger => s
  | _ => p

/-- The side whose attributes lose the attribute merge of mergeItems. -/
def loserOf (p s : Item) : MergeMode → Item
  | .preserveSwagger => p
  | _ => s

/-- The names present at the tree level addressed by a path of folder names:
at the empty path the sibling names themselves, under name n the level
reached through every folder (nonempty-children node) called n. -/
def namesAt (path : List String) (its : List Item) : List String :=
  match path with
  | [] => its.map Item.name
  | n :: rest =>
    ((its.filter (fun it => it.name == n && !(it.sub.isEmpty))).map
      (fun it => namesAt rest it.sub)).flatten

mutual
/-- Sibling-name uniqueness through a whole subtree (the data-model
invariant of the specification: a name is unique among its siblings
within one source tree). -/
def treeUnique : Item → Bool
  | .mk _ _ sub => levelUnique sub
/-- Sibling-name uniqueness of a node list and of all its subtrees. -/
def levelUnique : List Item → Bool
  | [] => true
  | it :: rest =>
    treeUnique it && !((rest.map Item.name).contains it.name) && levelUnique rest
end

mutual
/-- Every sibling sequence inside the subtree is sorted by ascending name. -/
def allSortedI : Item → Bool
  | .mk _ _ sub => allSortedL sub
/-- The list is sorted by ascending name and so is every level below it. -/
def allSortedL : List Item → Bool
  | [] => true
  | [it] => allSortedI it
  | it :: it2 :: rest => allSortedI it && byName it it2 && allSortedL (it2 :: rest)
end

mutual
/-- The tree with every sibling sequence sorted by ascending name, used to
state what the Replace claim predicts. -/
def deepSortI : Item → Item
  | .mk n a sub => .mk n a (deepSortL sub)
/-- Sort a node list by name after deep-sorting each node (insertion formulation
of insertionSort, with each inserted node recursively deep-sorted). -/
def deepSortL : List Item → List Item
  | [] => []
  | it :: rest => List.orderedInsert (fun a b => byName a b = true) (deepSortI it) (deepSortL rest)
end

mutual
/-- Every node of the subtree with a truthy _postman_id has id equal to it. -/
def idsOkI : Item → Bool
  | .mk _ a sub => (!truthyStr a.pid || (a.id == a.pid)) && idsOkL sub
def idsOkL : List Item → Bool
  | [] => true
  | it :: rest => idsOkI it && idsOkL rest
end

/-- The generic per-kind indexing fold underlying levelMapGo: upsert every
item selected by sel, keyed by its name, in list order. -/
def mapOf (sel : Item → Bool) (acc : List (String × Item)) : List Item → List (String × Item)
  | [] => acc
  | it :: rest => mapOf sel (if sel it then upsert acc it.name it else acc) rest

/-- An item with empty children: an endpoint (goes to the items map). -/
def isLeafB (it : Item) : Bool := it.sub.isEmpty

/-- An item with nonempty children: a folder (goes to the folders map). -/
def isFolderB (it : Item) : Bool := !(it.sub.isEmpty)

/-- The name-keyed association list of the selected items, assuming no
upsert ever replaces (used to characterize levelMap on duplicate-free
levels). -/
def assocOf (sel : Item → Bool) (l : List Item) : List (String × Item) :=
  (l.filter sel).map (fun it => (it.name, it))

/--
The item collection of one side as merge() receives it
(collection?.collection?.item):

* absent: a falsy value (missing, undefined, null, ...): buildCollectionMap
  warns and returns the empty map;
* notSeq: a truthy value that is not iterable (a number, a plain object):
  the guard does not catch it and the for-of loop of processItems throws a
  TypeError;
* seq: a proper item array.
-/
inductive NodeField : Type where
  | absent
  | notSeq
  | seq (items : List Item)
deriving DecidableEq

/-- buildCollectionMap of merger.ts lines 102-117 on a loosely shaped
input, with the TypeError a non-iterable truthy collection causes in
processItems surfaced as an error value. -/
def buildCollectionMapE : NodeField → String → Except Unit CMap
  | .absent, _ => .ok ⟨[], []⟩
  | .notSeq, _ => .error ()
  | .seq its, source => .ok (buildMapL source its)

/-- merge() of merger.ts lines 70-97 on loosely shaped inputs: build the
swagger map, then the postman map, reconcile and normalize ids; a thrown
TypeError propagates. -/
def mergeE (sw pm : NodeField) (mode : MergeMode) : Except Unit (List Item) :=
  match buildCollectionMapE sw "swagger" with
  | .error e => .error e
  | .ok sMap =>
    match buildCollectionMapE pm "postman" with
    | .error e => .error e
    | .ok pMap => .ok (normIdsL (mergeCollectionMaps pMap sMap mode))

/-- A node of the output array, for the mutation model: either a reference
to a caller-owned input node (pushed by reference) or a fresh node built by
mergeItems. -/
inductive ORef : Type where
  | shared (a : Nat)
  | fresh (it : Item)

/-- The default used to read the store total-ly; reads in the theorems are
guarded by membership so the default is never observed. -/
def dummyItem : Item := .mk "" ⟨none, none, .undef, none, none, none, false⟩ []

/-- The _source := source mutation of processItems on the node stored at
one address. -/
def tagAt (source : String) (store : List Item) (a : Nat) : List Item :=
  match store.get? a with
  | some (.mk n at1 sub) => store.set a (.mk n { at1 with src := some source } sub)
  | none => store

/-- processItems tagging over a tree given by addresses (flat tree: every
address one node). -/
def tagAll (source : String) (store : List Item) (addrs : List Nat) : List Item :=
  addrs.foldl (tagAt source) store

/-- The per-level index of a flat address-tree: name-keyed addresses, in
order, last duplicate winning (Map.set). -/
def levelMapAddrs (store : List Item) (addrs : List Nat) : List (String × Nat) :=
  addrs.foldl (fun m a => upsert m ((store.getD a dummyItem).name) a) []

/-- The output array of mergeCollectionMaps for flat trees, with sharing
made explicit: matched pairs yield fresh mergeItems nodes, unmatched nodes
of either side are pushed by reference; under REPLACE every swagger node is
pushed by reference.  (The final sort permutes this array only and touches
no node, so it is irrelevant to the mutation facts proved here and is
omitted.) -/
def flatOutRefs (p s : List (String × Nat)) (store : List Item) (mode : MergeMode) : List ORef :=
  match mode with
  | .replace => s.map (fun pr => .shared pr.2)
  | _ =>
    let part1 := p.map (fun pr =>
      match lookupA s pr.1 with
      | some b => ORef.fresh (mergeItems (store.getD pr.2 dummyItem) (store.getD b dummyItem) mode)
      | none => ORef.shared pr.2)
    let processed := p.filterMap (fun pr => if (lookupA s pr.1).isSome then some pr.1 else none)
    let part3 := (s.filter (fun pr => !(processed.contains pr.1))).map (fun pr => ORef.shared pr.2)
    part1 ++ part3

/-- The in-place id write of processIds (item.id = item._postman_id when
truthy) over the output array: only shared nodes alias caller memory. -/
def processIdsStore (store : List Item) (outs : List ORef) : List Item :=
  outs.foldl
    (fun st o =>
      match o with
      | .shared a =>
        match st.get? a with
        | some (.mk n at1 sub) =>
          if truthyStr at1.pid then st.set a (.mk n { at1 with id := at1.pid } sub) else st
        | none => st
      | .fresh _ => st)
    store

/-- The whole pipeline of merge() in the flat-tree mutation model: tag the
swagger tree, tag the postman tree, index both, reconcile, run processIds;
the first component is the caller's memory afterwards. -/
def mergeStoreFlat (store : List Item) (sAddrs pAddrs : List Nat) (mode : MergeMode) :
    List Item × List ORef :=
  let st1 := tagAll "swagger" store sAddrs
  let st2 := tagAll "postman" st1 pAddrs
  let sMap := levelMapAddrs st2 sAddrs
  let pMap := levelMapAddrs st2 pAddrs
  let outs := flatOutRefs pMap sMap st2 mode
  (processIdsStore st2 outs, outs)

/-- Baseline attribute record for concrete example nodes. -/
def attrs0 : Attrs := ⟨none, none, .undef, none, none, none, false⟩

/-- A query parameter object key: "a", value: "1". -/
def qprm1 : JVal := .obj [("key", .str "a"), ("value", .str "1")]

/-- A second query parameter object sharing the key "a", value: "2". -/
def qprm2 : JVal := .obj [("key", .str "a"), ("value", .str "2")]

/-- A postman-side leaf whose request carries a query list with a duplicated
parameter key. -/
def c2p : Item := .mk "e" ⟨none, none, .obj [("query", .arr [qprm1, qprm2])], none, none, none, false⟩ []

/-- A swagger-side leaf whose request carries an empty query list. -/
def c2s : Item := .mk "e" ⟨none, none, .obj [("query", .arr [])], none, none, none, false⟩ []

/-- A postman-side leaf with one saved response example. -/
def c4p : Item := .mk "e" ⟨none, none, .undef, some [.str "saved"], none, none, false⟩ []

/-- A swagger-side leaf with a present but empty response list. -/
def c4s : Item := .mk "e" ⟨none, none, .undef, some [], none, none, false⟩ []

/-- The authoritative debug parameter of the specification's scenario 3. -/
def wqd : JVal := .obj [("key", .str "debug"), ("value", .str "auth")]

/-- The incoming debug parameter (same key, different value). -/
def wqd2 : JVal := .obj [("key", .str "debug"), ("value", .str "spec")]

/-- The incoming redirect parameter (key only on the incoming side). -/
def wqr : JVal := .obj [("key", .str "redirect")]

/-- The authoritative POST /login leaf of scenario 3. -/
def wc2p : Item := .mk "login" ⟨none, none, .obj [("query", .arr [wqd])], none, none, none, false⟩ []

/-- The incoming POST /login leaf of scenario 3. -/
def wc2s : Item := .mk "login" ⟨none, none, .obj [("query", .arr [wqd2, wqr])], none, none, none, false⟩ []

/-- A leaf whose _postman_id is present but empty (falsy), with a different
id. -/
def c6p : Item := .mk "e" ⟨some "", some "x", .undef, none, none, none, false⟩ []

/-- A leaf carrying stable identifier "a". -/
def c7p : Item := .mk "e" ⟨some "a", none, .undef, none, none, none, false⟩ []

/-- A leaf carrying stable identifier "b". -/
def c7s : Item := .mk "e" ⟨some "b", none, .undef, none, none, none, false⟩ []

/-- A leaf with a name, the default attributes and no children. -/
def leaf0 (n : String) : Item := .mk n attrs0 []

/-- A folder with a name, the default attributes and the given children. -/
def folder0 (n : String) (sub : List Item) : Item := .mk n attrs0 sub

/-! ### The name order -/

theorem charsLe_cons (x y : Char) (xs ys : List Char) :
    charsLe (x :: xs) (y :: ys) = true ↔
      (x.toNat < y.toNat ∨ (x.toNat = y.toNat ∧ charsLe xs ys = true)) := by
  simp only [charsLe]
  split_ifs with h1 h2
  · simp; omega
  · simp; omega
  · constructor
    · intro h; right; exact ⟨by omega, h⟩
    · rintro (h | ⟨-, h⟩)
      · omega
      · exact h

theorem charsLe_total : ∀ a b : List Char, charsLe a b = true ∨ charsLe b a = true := by
  intro a
  induction a with
  | nil => intro b; left; rfl
  | cons x xs ih =>
    intro b
    cases b with
    | nil => right; rfl
    | cons y ys =>
      rcases Nat.lt_trichotomy x.toNat y.toNat with h | h | h
      · left; rw [charsLe_cons]; exact .inl h
      · rcases ih ys with h2 | h2
        · left; rw [charsLe_cons]; exact .inr ⟨h, h2⟩
        · right; rw [charsLe_cons]; exact .inr ⟨h.symm, h2⟩
      · right; rw [charsLe_cons]; exact .inl h

theorem charsLe_trans : ∀ a b c : List Char,
    charsLe a b = true → charsLe b c = true → charsLe a c = true := by
  intro a
  induction a with
  | nil => intro b c _ _; rfl
  | cons x xs ih =>
    intro b c hab hbc
    cases b with
    | nil => simp [charsLe] at hab
    | cons y ys =>
      cases c with
      | nil => simp [charsLe] at hbc
      | cons z zs =>
        rw [charsLe_cons] at hab hbc ⊢
        rcases hab with h1 | ⟨h1, h1'⟩ <;> rcases hbc with h2 | ⟨h2, h2'⟩
        · exact .inl (by omega)
        · exact .inl (by omega)
        · exact .inl (by omega)
        · exact .inr ⟨by omega, ih ys zs h1' h2'⟩

instance : IsTotal Item (fun a b => byName a b = true) :=
  ⟨fun a b => charsLe_total a.name.data b.name.data⟩

instance : IsTrans Item (fun a b => byName a b = true) :=
  ⟨fun _ _ _ => charsLe_trans _ _ _⟩

theorem sortByName_sorted (l : List Item) :
    (sortByName l).Sorted (fun a b => byName a b = true) :=
  List.sorted_insertionSort _ l

theorem sortByName_perm (l : List Item) : List.Perm (sortByName l) l :=
  List.perm_insertionSort _ l

theorem mem_sortByName {a : Item} {l : List Item} : a ∈ sortByName l ↔ a ∈ l :=
  (sortByName_perm l).mem_iff

/-! ### Association-list (Map) lemmas -/

theorem lookupA_eq_find {α : Type} (l : List (String × α)) (k : String) :
    lookupA l k = (l.find? (fun pr => pr.1 == k)).map Prod.snd := by
  simp only [lookupA]
  cases l.find? (fun pr => pr.1 == k) <;> rfl

theorem lookupA_eq_none {α : Type} {l : List (String × α)} {k : String} :
    lookupA l k = none ↔ ∀ pr ∈ l, pr.1 ≠ k := by
  rw [lookupA_eq_find, Option.map_eq_none', List.find?_eq_none]
  simp

theorem lookupA_some_mem {α : Type} {l : List (String × α)} {k : String} {v : α}
    (h : lookupA l k = some v) : (k, v) ∈ l := by
  rw [lookupA_eq_find, Option.map_eq_some'] at h
  rcases h with ⟨pr, hf, hv⟩
  have hm := List.mem_of_find?_eq_some hf
  have hk := List.find?_some hf
  simp only [beq_iff_eq] at hk
  cases pr
  cases hk
  cases hv
  exact hm

theorem lookupA_isSome {α : Type} {l : List (String × α)} {k : String}
    (pr : String × α) (hm : pr ∈ l) (hk : pr.1 = k) : (lookupA l k).isSome := by
  rw [lookupA_eq_find, Option.isSome_map']
  cases hf : l.find? (fun q => q.1 == k)
  · have := List.find?_eq_none.mp hf pr hm
    simp [hk] at this
  · rfl

theorem mem_upsert {α : Type} {l : List (String × α)} {k k' : String} {v v' : α}
    (h : (k', v') ∈ upsert l k v) : (k', v') ∈ l ∨ (k' = k ∧ v' = v) := by
  simp only [upsert] at h
  split_ifs at h with hc
  · rcases List.mem_map.mp h with ⟨pr, hpr, he⟩
    by_cases hk : pr.1 = k
    · right
      rw [if_pos (by simpa using hk)] at he
      exact ⟨congrArg Prod.fst he.symm, congrArg Prod.snd he.symm⟩
    · left
      rw [if_neg (by simpa using hk)] at he
      exact he ▸ hpr
  · rcases List.mem_append.mp h with h | h
    · exact .inl h
    · right
      simp only [List.mem_singleton] at h
      exact ⟨congrArg Prod.fst h, congrArg Prod.snd h⟩

theorem upsert_of_absent {α : Type} {l : List (String × α)} {k : String} {v : α}
    (h : ∀ pr ∈ l, pr.1 ≠ k) : upsert l k v = l ++ [(k, v)] := by
  simp only [upsert]
  rw [if_neg]
  simp only [List.any_eq_true, not_exists, not_and]
  intro pr hpr
  simp [h pr hpr]

theorem keys_upsert {α : Type} (l : List (String × α)) (k : String) (v : α) :
    ∀ k', k' ∈ (upsert l k v).map Prod.fst ↔ (k' ∈ l.map Prod.fst ∨ k' = k) := by
  intro k'
  simp only [upsert]
  split_ifs with hc
  · simp only [List.map_map, List.mem_map, Function.comp_apply]
    constructor
    · rintro ⟨pr, hpr, he⟩
      by_cases hk : pr.1 = k
      · right; rw [if_pos (by simpa using hk)] at he; exact he.symm
      · left
        rw [if_neg (by simpa using hk)] at he
        exact ⟨pr, hpr, he⟩
    · rintro (⟨pr, hpr, he⟩ | rfl)
      · refine ⟨pr, hpr, ?_⟩
        by_cases hk : pr.1 = k
        · rw [if_pos (by simpa using hk)]; rw [← he]; exact hk.symm
        · rw [if_neg (by simpa using hk)]; exact he
      · simp only [List.any_eq_true] at hc
        rcases hc with ⟨pr, hpr, he⟩
        simp only [beq_iff_eq] at he
        exact ⟨pr, hpr, by rw [if_pos (by simpa using he)]⟩
  · simp

theorem keys_upsert_nodup {α : Type} {l : List (String × α)} {k : String} {v : α}
    (h : (l.map Prod.fst).Nodup) : ((upsert l k v).map Prod.fst).Nodup := by
  simp only [upsert]
  split_ifs with hc
  · have : (l.map (fun pr => if pr.1 == k then (k, v) else pr)).map Prod.fst = l.map Prod.fst := by
      simp only [List.map_map]
      apply List.map_congr_left
      intro pr _
      by_cases hk : pr.1 = k
      · simp [hk]
      · simp [hk]
    rw [this]
    exact h
  · simp only [List.map_append, List.map_cons, List.map_nil]
    apply List.Nodup.append h (List.nodup_singleton k)
    intro k' hk1 hk2
    simp only [List.mem_singleton] at hk2
    subst hk2
    rcases List.mem_map.mp hk1 with ⟨pr, hpr, he⟩
    simp only [List.any_eq_true, not_exists, not_and] at hc
    exact absurd (by simpa using he) (hc pr hpr)

/-! ### Characterizing the level maps -/

theorem mapOf_entries {sel : Item → Bool} :
    ∀ (l : List Item) (acc : List (String × Item)) (k : String) (v : Item),
      (k, v) ∈ mapOf sel acc l →
      (k, v) ∈ acc ∨ (v ∈ l ∧ sel v = true ∧ v.name = k) := by
  intro l
  induction l with
  | nil => intro acc k v h; exact .inl h
  | cons it rest ih =>
    intro acc k v h
    simp only [mapOf] at h
    rcases ih _ k v h with h2 | ⟨h2, h3, h4⟩
    · split_ifs at h2 with hsel
      · rcases mem_upsert h2 with h3 | ⟨rfl, rfl⟩
        · exact .inl h3
        · exact .inr ⟨List.mem_cons_self .., hsel, rfl⟩
      · exact .inl h2
    · exact .inr ⟨List.mem_cons_of_mem _ h2, h3, h4⟩

theorem mapOf_keys {sel : Item → Bool} :
    ∀ (l : List Item) (acc : List (String × Item)) (k : String),
      k ∈ (mapOf sel acc l).map Prod.fst ↔
        (k ∈ acc.map Prod.fst ∨ ∃ it ∈ l, sel it = true ∧ it.name = k) := by
  intro l
  induction l with
  | nil => intro acc k; simp [mapOf]
  | cons it rest ih =>
    intro acc k
    simp only [mapOf]
    rw [ih]
    split_ifs with hsel
    · rw [keys_upsert]
      constructor
      · rintro ((h | rfl) | h)
        · exact .inl h
        · exact .inr ⟨it, List.mem_cons_self .., hsel, rfl⟩
        · rcases h with ⟨jt, hj, h1, h2⟩
          exact .inr ⟨jt, List.mem_cons_of_mem _ hj, h1, h2⟩
      · rintro (h | ⟨jt, hj, h1, h2⟩)
        · exact .inl (.inl h)
        · rcases List.mem_cons.mp hj with rfl | hj2
          · exact .inl (.inr h2.symm)
          · exact .inr ⟨jt, hj2, h1, h2⟩
    · constructor
      · rintro (h | ⟨jt, hj, h1, h2⟩)
        · exact .inl h
        · exact .inr ⟨jt, List.mem_cons_of_mem _ hj, h1, h2⟩
      · rintro (h | ⟨jt, hj, h1, h2⟩)
        · exact .inl h
        · rcases List.mem_cons.mp hj with rfl | hj2
          · exact absurd h1 (by simp [hsel])
          · exact .inr ⟨jt, hj2, h1, h2⟩

theorem mapOf_keys_nodup {sel : Item → Bool} :
    ∀ (l : List Item) (acc : List (String × Item)),
      (acc.map Prod.fst).Nodup → ((mapOf sel acc l).map Prod.fst).Nodup := by
  intro l
  induction l with
  | nil => intro acc h; exact h
  | cons it rest ih =>
    intro acc h
    simp only [mapOf]
    split_ifs with hsel
    · exact ih _ (keys_upsert_nodup h)
    · exact ih _ h

theorem mapOf_of_nodup {sel : Item → Bool} :
    ∀ (l : List Item) (acc : List (String × Item)),
      (l.map Item.name).Nodup →
      (∀ it ∈ l, sel it = true → ∀ pr ∈ acc, pr.1 ≠ it.name) →
      mapOf sel acc l = acc ++ assocOf sel l := by
  intro l
  induction l with
  | nil => intro acc _ _; simp [mapOf, assocOf]
  | cons it rest ih =>
    intro acc hnd hfr
    simp only [mapOf]
    have hrest : (rest.map Item.name).Nodup := by
      simp only [List.map_cons, List.nodup_cons] at hnd
      exact hnd.2
    have hhead : it.name ∉ rest.map Item.name := by
      simp only [List.map_cons, List.nodup_cons] at hnd
      exact hnd.1
    split_ifs with hsel
    · rw [upsert_of_absent (fun pr hpr => hfr it (List.mem_cons_self ..) hsel pr hpr)]
      rw [ih _ hrest ?_]
      · simp [assocOf, List.filter_cons, hsel]
      · intro jt hj hjsel pr hpr
        rcases List.mem_append.mp hpr with hpr | hpr
        · exact hfr jt (List.mem_cons_of_mem _ hj) hjsel pr hpr
        · simp only [List.mem_singleton] at hpr
          subst hpr
          intro he
          apply hhead
          rw [show it.name = jt.name from he]
          exact List.mem_map_of_mem Item.name hj
    · rw [ih _ hrest ?_]
      · simp [assocOf, List.filter_cons, hsel]
      · intro jt hj hjsel pr hpr
        exact hfr jt (List.mem_cons_of_mem _ hj) hjsel pr hpr

theorem levelMapGo_eq :
    ∀ (l : List Item) (i f : List (String × Item)),
      levelMapGo ⟨i, f⟩ l = ⟨mapOf isLeafB i l, mapOf isFolderB f l⟩ := by
  intro l
  induction l with
  | nil => intro i f; rfl
  | cons it rest ih =>
    intro i f
    simp only [levelMapGo, mapOf, isLeafB, isFolderB]
    by_cases hsel : it.sub.isEmpty
    · rw [if_pos hsel, if_pos hsel, if_neg (by simp [hsel])]
      exact ih _ _
    · rw [if_neg hsel, if_neg hsel, if_pos (by simpa using hsel)]
      exact ih _ _

theorem levelMap_items (l : List Item) : (levelMap l).items = mapOf isLeafB [] l := by
  rw [levelMap, levelMapGo_eq]

theorem levelMap_folders (l : List Item) : (levelMap l).folders = mapOf isFolderB [] l := by
  rw [levelMap, levelMapGo_eq]

theorem levelMap_items_entry {l : List Item} {k : String} {v : Item}
    (h : (k, v) ∈ (levelMap l).items) : v ∈ l ∧ v.sub = [] ∧ v.name = k := by
  rw [levelMap_items] at h
  rcases mapOf_entries l [] k v h with h2 | ⟨h2, h3, h4⟩
  · exact absurd h2 (List.not_mem_nil _)
  · exact ⟨h2, by simpa [isLeafB, List.isEmpty_iff] using h3, h4⟩

theorem levelMap_folders_entry {l : List Item} {k : String} {v : Item}
    (h : (k, v) ∈ (levelMap l).folders) : v ∈ l ∧ v.sub ≠ [] ∧ v.name = k := by
  rw [levelMap_folders] at h
  rcases mapOf_entries l [] k v h with h2 | ⟨h2, h3, h4⟩
  · exact absurd h2 (List.not_mem_nil _)
  · exact ⟨h2, by simpa [isFolderB, List.isEmpty_iff] using h3, h4⟩

theorem levelMap_items_keys {l : List Item} {k : String} :
    k ∈ (levelMap l).items.map Prod.fst ↔ ∃ it ∈ l, it.sub = [] ∧ it.name = k := by
  rw [levelMap_items, mapOf_keys]
  simp [isLeafB, List.isEmpty_iff]

theorem levelMap_folders_keys {l : List Item} {k : String} :
    k ∈ (levelMap l).folders.map Prod.fst ↔ ∃ it ∈ l, it.sub ≠ [] ∧ it.name = k := by
  rw [levelMap_folders, mapOf_keys]
  simp [isFolderB, List.isEmpty_iff]

theorem levelMap_of_nodup {l : List Item} (h : (l.map Item.name).Nodup) :
    levelMap l = ⟨assocOf isLeafB l, assocOf isFolderB l⟩ := by
  rw [levelMap, levelMapGo_eq, mapOf_of_nodup l [] h (by simp),
    mapOf_of_nodup l [] h (by simp)]
  rfl

theorem assocOf_values (sel : Item → Bool) (l : List Item) :
    (assocOf sel l).map Prod.snd = l.filter sel := by
  simp [assocOf, List.map_map, Function.comp_def]

/-! ### Depth bounds and fuel irrelevance -/

theorem depthI_mem : ∀ {it : Item} {l : List Item}, it ∈ l → depthI it ≤ depthL l := by
  intro it l h
  induction l with
  | nil => exact absurd h (List.not_mem_nil _)
  | cons jt rest ih =>
    rcases List.mem_cons.mp h with rfl | h2
    · simp only [depthL]
      exact Nat.le_max_left _ _
    · simp only [depthL]
      exact le_trans (ih h2) (Nat.le_max_right _ _)

theorem depthL_le {l : List Item} {n : Nat} (h : ∀ it ∈ l, depthI it ≤ n) : depthL l ≤ n := by
  induction l with
  | nil => simp [depthL]
  | cons jt rest ih =>
    simp only [depthL]
    exact Nat.max_le.mpr
      ⟨h jt (List.mem_cons_self ..), ih fun it hit => h it (List.mem_cons_of_mem _ hit)⟩

theorem depthL_sub_lt (it : Item) : depthL it.sub < depthI it := by
  cases it with
  | mk n a sub => simp only [depthI, Item.sub]; omega

theorem depthM_levelMap_le (l : List Item) : depthM (levelMap l) ≤ depthL l := by
  apply depthL_le
  intro it hit
  rcases List.mem_map.mp hit with ⟨pr, hpr, rfl⟩
  exact depthI_mem (levelMap_folders_entry (show (pr.1, pr.2) ∈ _ from hpr)).1

theorem depthM_levelMap_sub_lt {pr : String × Item} {m : CMap} (h : pr ∈ m.folders) :
    depthM (levelMap pr.2.sub) < depthM m := by
  apply lt_of_le_of_lt (depthM_levelMap_le _)
  apply lt_of_lt_of_le (depthL_sub_lt pr.2)
  exact depthI_mem (List.mem_map_of_mem Prod.snd h)

theorem mergeCM_congr :
    ∀ (f g : Nat) (p s : CMap) (mode : MergeMode),
      depthM p + depthM s < f → depthM p + depthM s < g →
      mergeCM f p s mode = mergeCM g p s mode := by
  intro f
  induction f with
  | zero => intro g p s mode hf; omega
  | succ f' ih =>
    intro g p s mode hf hg
    cases mode with
    | replace => cases g <;> rfl
    | preservePostman =>
      cases g with
      | zero => omega
      | succ g' =>
        simp only [mergeCM]
        congr 1
        congr 1
        congr 1
        congr 1
        apply List.map_congr_left
        intro pr hpr
        cases hl : lookupA s.folders pr.1 with
        | none => rfl
        | some sf =>
          have h1 := depthM_levelMap_sub_lt hpr
          have h2 := depthM_levelMap_sub_lt (lookupA_some_mem hl)
          simp only
          rw [ih g' (levelMap pr.2.sub) (levelMap sf.sub) _ (by simp at h2; omega)
            (by simp at h2; omega)]
    | preserveSwagger =>
      cases g with
      | zero => omega
      | succ g' =>
        simp only [mergeCM]
        congr 1
        congr 1
        congr 1
        congr 1
        apply List.map_congr_left
        intro pr hpr
        cases hl : lookupA s.folders pr.1 with
        | none => rfl
        | some sf =>
          have h1 := depthM_levelMap_sub_lt hpr
          have h2 := depthM_levelMap_sub_lt (lookupA_some_mem hl)
          simp only
          rw [ih g' (levelMap pr.2.sub) (levelMap sf.sub) _ (by simp at h2; omega)
            (by simp at h2; omega)]

theorem mergeCM_eq_mergeCollectionMaps {f : Nat} {p s : CMap} {mode : MergeMode}
    (hf : depthM p + depthM s < f) :
    mergeCM f p s mode = mergeCollectionMaps p s mode :=
  mergeCM_congr f (depthM p + depthM s + 1) p s mode hf (by omega)

/--
The recurrence mergeCollectionMaps satisfies, in the shape of the source
(merger.ts lines 153-226): under REPLACE the sorted swagger items and
folders; otherwise the postman items (merged when matched), the postman
folders (matched ones with recursively merged children), then the
unprocessed swagger items and folders, sorted by name.
-/
theorem mergeCollectionMaps_eq (p s : CMap) (mode : MergeMode) :
    mergeCollectionMaps p s mode =
      match mode with
      | .replace => sortByName (s.items.map (fun pr => pr.2) ++ s.folders.map (fun pr => pr.2))
      | _ =>
        sortByName
          ((p.items.map (fun pr =>
            match lookupA s.items pr.1 with
            | some sit => mergeItems pr.2 sit mode
            | none => pr.2)) ++
          (p.folders.map (fun pr =>
            match lookupA s.folders pr.1 with
            | some sf =>
              mergedFolder pr.2 (mergeCollectionMaps (levelMap pr.2.sub) (levelMap sf.sub) mode)
            | none => pr.2)) ++
          ((s.items.filter (fun pr => !((processedNames p s).contains pr.1))).map (fun pr => pr.2)) ++
          ((s.folders.filter (fun pr => !((processedNames p s).contains pr.1))).map (fun pr => pr.2))) := by
  cases mode with
  | replace => rfl
  | preservePostman =>
    show mergeCM (depthM p + depthM s + 1) p s MergeMode.preservePostman = _
    simp only [mergeCM]
    congr 1
    congr 1
    congr 1
    congr 1
    apply List.map_congr_left
    intro pr hpr
    cases hl : lookupA s.folders pr.1 with
    | none => rfl
    | some sf =>
      have h1 := depthM_levelMap_sub_lt hpr
      have h2 := depthM_levelMap_sub_lt (lookupA_some_mem hl)
      simp only
      rw [mergeCM_eq_mergeCollectionMaps (by simp at h2; omega)]
  | preserveSwagger =>
    show mergeCM (depthM p + depthM s + 1) p s MergeMode.preserveSwagger = _
    simp only [mergeCM]
    congr 1
    congr 1
    congr 1
    congr 1
    apply List.map_congr_left
    intro pr hpr
    cases hl : lookupA s.folders pr.1 with
    | none => rfl
    | some sf =>
      have h1 := depthM_levelMap_sub_lt hpr
      have h2 := depthM_levelMap_sub_lt (lookupA_some_mem hl)
      simp only
      rw [mergeCM_eq_mergeCollectionMaps (by simp at h2; omega)]

/-! ### Object-field and query-merge lemmas -/

theorem getF_eq_find (fs : List (String × JVal)) (k : String) :
    getF fs k = (fs.find? (fun pr => pr.1 == k)).map Prod.snd := by
  simp only [getF]
  cases fs.find? (fun pr => pr.1 == k) <;> rfl

theorem getF_mapReplace (k : String) (v : JVal) :
    ∀ fs : List (String × JVal),
      getF (fs.map (fun pr => if pr.1 == k then (k, v) else pr)) k =
        if fs.any (fun pr => pr.1 == k) then some v else none := by
  intro fs
  induction fs with
  | nil => rfl
  | cons pr rest ih =>
    by_cases hk : pr.1 = k
    · rw [getF_eq_find]
      simp only [List.map_cons, if_pos (show (pr.1 == k) = true by simpa using hk)]
      rw [List.find?_cons_of_pos _ (by simp)]
      simp [List.any_cons, hk]
    · rw [getF_eq_find] at ih ⊢
      simp only [List.map_cons, if_neg (show ¬(pr.1 == k) = true by simpa using hk)]
      rw [List.find?_cons_of_neg _ (by simpa using hk), ih]
      simp only [List.any_cons, show (pr.1 == k) = false by simpa using hk, Bool.false_or]

theorem getF_append_right {fs : List (String × JVal)} {k : String}
    (h : ∀ pr ∈ fs, pr.1 ≠ k) (tl : List (String × JVal)) :
    getF (fs ++ tl) k = getF tl k := by
  induction fs with
  | nil => rfl
  | cons pr rest ih =>
    rw [getF_eq_find, List.cons_append, List.find?_cons,
      show (pr.1 == k) = false by simpa using h pr (List.mem_cons_self ..)]
    rw [getF_eq_find] at ih
    exact ih fun q hq => h q (List.mem_cons_of_mem _ hq)

theorem getF_setF_self (fs : List (String × JVal)) (k : String) (v : JVal) :
    getF (setF fs k v) k = some v := by
  simp only [setF]
  split_ifs with hc
  · rw [getF_mapReplace, if_pos hc]
  · rw [getF_append_right]
    · simp [getF_eq_find]
    · intro pr hpr
      simp only [List.any_eq_true] at hc
      intro he
      exact hc ⟨pr, hpr, by simpa using he⟩

theorem getF_setF_ne {fs : List (String × JVal)} {k k' : String} {v : JVal}
    (h : k' ≠ k) : getF (setF fs k v) k' = getF fs k' := by
  simp only [setF]
  split_ifs with hc
  · clear hc
    rw [getF_eq_find, getF_eq_find]
    congr 1
    induction fs with
    | nil => rfl
    | cons pr rest ih =>
      simp only [List.map_cons, List.find?_cons]
      by_cases hk : pr.1 = k
      · rw [if_pos (show (pr.1 == k) = true by simpa using hk)]
        have h1 : (k == k') = false := by simpa using (fun he => h he.symm)
        have h2 : (pr.1 == k') = false := by
          rw [hk]
          exact h1
        simp only [h1, h2]
        exact ih
      · rw [if_neg (show ¬(pr.1 == k) = true by simpa using hk)]
        cases hpk : pr.1 == k'
        · exact ih
        · rfl
  · clear hc
    rw [getF_eq_find, getF_eq_find]
    congr 1
    induction fs with
    | nil =>
      simp only [List.nil_append, List.find?_cons, List.find?_nil,
        show (k == k') = false by simpa using (fun he => h he.symm)]
    | cons pr rest ih =>
      simp only [List.cons_append, List.find?_cons]
      cases hpk : pr.1 == k'
      · exact ih
      · rfl

theorem dmLoop_getF_stable :
    ∀ (sfs tfs acc : List (String × JVal)) (k : String),
      (∀ pr ∈ sfs, pr.1 ≠ k) → getF (dmLoop tfs acc sfs) k = getF acc k := by
  intro sfs
  induction sfs with
  | nil => intro tfs acc k _; rfl
  | cons pr rest ih =>
    intro tfs acc k h
    cases pr with
    | mk k' sv =>
      have hne : k' ≠ k := h (k', sv) (List.mem_cons_self ..)
      have hrest : ∀ pr ∈ rest, pr.1 ≠ k := fun q hq => h q (List.mem_cons_of_mem _ hq)
      simp only [dmLoop]
      rw [ih _ _ _ hrest]
      cases sv with
      | undef => rfl
      | null => exact getF_setF_ne (fun he => hne he.symm)
      | bool b => exact getF_setF_ne (fun he => hne he.symm)
      | num n => exact getF_setF_ne (fun he => hne he.symm)
      | str s => exact getF_setF_ne (fun he => hne he.symm)
      | arr es =>
        simp only
        split_ifs <;> exact getF_setF_ne (fun he => hne he.symm)
      | obj o => exact getF_setF_ne (fun he => hne he.symm)

/-- What the query branch of deepMerge appends: the target-side parameters
whose key does not occur among the source-side keys, each passed through
concat's one-level spread. -/
def queryNew (tfs : List (String × JVal)) (qW : List JVal) : List JVal :=
  (match (getF tfs "query").getD .undef with
   | .arr tes => tes.filter (fun itv => !((qW.map jsKey).contains (jsKey itv)))
   | _ => []).flatMap concatSpread

theorem dmLoop_getF_query :
    ∀ (sfs tfs acc : List (String × JVal)) (qW : List JVal),
      ("query", JVal.arr qW) ∈ sfs →
      (sfs.map Prod.fst).Nodup →
      getF (dmLoop tfs acc sfs) "query" = some (.arr (qW ++ queryNew tfs qW)) := by
  intro sfs
  induction sfs with
  | nil => intro tfs acc qW h; exact absurd h (List.not_mem_nil _)
  | cons pr rest ih =>
    intro tfs acc qW hmem hnd
    cases pr with
    | mk k' sv =>
      simp only [List.map_cons, List.nodup_cons] at hnd
      by_cases hk : k' = "query"
      · subst hk
        have hhead : sv = JVal.arr qW := by
          rcases List.mem_cons.mp hmem with he | hr
          · exact (congrArg Prod.snd he).symm
          · exact absurd (List.mem_map_of_mem Prod.fst hr) hnd.1
        subst hhead
        simp only [dmLoop]
        rw [dmLoop_getF_stable _ _ _ _
          (fun q hq he => hnd.1 (by rw [← he]; exact List.mem_map_of_mem Prod.fst hq))]
        rw [if_pos (by rfl)]
        exact getF_setF_self _ _ _
      · have hr : ("query", JVal.arr qW) ∈ rest := by
          rcases List.mem_cons.mp hmem with he | hr
          · exact absurd (congrArg Prod.fst he).symm hk
          · exact hr
        simp only [dmLoop]
        exact ih _ _ _ hr hnd.2

theorem mergeItems_name (p s : Item) (mode : MergeMode) :
    (mergeItems p s mode).name = p.name := by
  cases mode <;> rfl

theorem mergeItems_sub (p s : Item) (mode : MergeMode) :
    (mergeItems p s mode).sub = p.sub := by
  cases mode <;> rfl

theorem mergeItems_pid (p s : Item) (mode : MergeMode) :
    (mergeItems p s mode).attrs.pid = p.attrs.pid := by
  cases mode <;> rfl

theorem mergeItems_request (p s : Item) (mode : MergeMode) (h : mode ≠ .replace) :
    (mergeItems p s mode).attrs.request =
      deepMerge (loserOf p s mode).attrs.request (winnerOf p s mode).attrs.request := by
  cases mode with
  | replace => exact absurd rfl h
  | preservePostman => rfl
  | preserveSwagger => rfl

theorem containsB_iff {α : Type} [BEq α] [LawfulBEq α] (l : List α) (a : α) :
    l.contains a = true ↔ a ∈ l := by
  simp [List.contains, List.elem_iff]

theorem containsJ_iff (l : List JVal) (a : JVal) : l.contains a = true ↔ a ∈ l :=
  containsB_iff l a

theorem contains_eq_false_of_not_mem {α : Type} [BEq α] [LawfulBEq α]
    {l : List α} {a : α} (h : a ∉ l) : l.contains a = false :=
  Bool.eq_false_iff.mpr (fun hc => h ((containsB_iff l a).mp hc))

theorem getF_some_mem {fs : List (String × JVal)} {k : String} {v : JVal}
    (h : getF fs k = some v) : (k, v) ∈ fs := by
  rw [getF_eq_find, Option.map_eq_some'] at h
  rcases h with ⟨pr, hf, hv⟩
  have hm := List.mem_of_find?_eq_some hf
  have hk := List.find?_some hf
  simp only [beq_iff_eq] at hk
  cases pr
  cases hk
  cases hv
  exact hm

/-- The query list of the merged request of a matched pair: the winner's
parameters followed by the loser's parameters whose key the winner lacks,
each kept loser entry passed through concat's one-level spread. -/
def mergedQuery (qW qL : List JVal) : List JVal :=
  qW ++ (qL.filter (fun itv => !((qW.map jsKey).contains (jsKey itv)))).flatMap concatSpread

/-- Array test of Array.isArray, marking the entries that concat's spread
would flatten one level. -/
def isArrV : JVal → Bool
  | .arr _ => true
  | _ => false

theorem flatMap_concatSpread_of_no_arr :
    ∀ {l : List JVal}, (∀ q ∈ l, isArrV q = false) → l.flatMap concatSpread = l := by
  intro l
  induction l with
  | nil => intro _; rfl
  | cons q rest ih =>
    intro h
    rw [List.flatMap_cons, ih (fun p hp => h p (List.mem_cons_of_mem _ hp))]
    have hq := h q (List.mem_cons_self ..)
    cases q with
    | arr es => exact absurd hq (by simp [isArrV])
    | undef => rfl
    | null => rfl
    | bool b => rfl
    | num n => rfl
    | str s => rfl
    | obj fs => rfl

/--
Claim C2 (amended: both parameter lists are assumed to carry pairwise
distinct keys — with an in-list duplicate key the merged list repeats it,
see the counterexample — and the loser's entries are assumed to be
parameter objects, not arrays, since concat's spread would flatten an
array-valued kept entry one level).  For a matched leaf pair merged under
a non-Replace policy whose two requests are objects with query parameter
lists qW (winner) and qL (loser): the merged request's query list is
exactly the winner's list followed by the loser's parameters whose key
does not occur on the winner's side; its keys are pairwise distinct; a key
occurs in it exactly when it occurs on either side; and every winner
parameter survives (so a key present on both sides keeps the winner's
parameter).
-/
theorem c2_query_union (p s : Item) (mode : MergeMode)
    (wfs lfs : List (String × JVal)) (qW qL : List JVal)
    (hmode : mode ≠ .replace)
    (hw : (winnerOf p s mode).attrs.request = .obj wfs)
    (hl : (loserOf p s mode).attrs.request = .obj lfs)
    (hqw : getF wfs "query" = some (.arr qW))
    (hql : getF lfs "query" = some (.arr qL))
    (hkeys : (wfs.map Prod.fst).Nodup)
    (hndW : (qW.map jsKey).Nodup)
    (hndL : (qL.map jsKey).Nodup)
    (hnarrL : ∀ q ∈ qL, isArrV q = false) :
    getF (objF (mergeItems p s mode).attrs.request) "query" = some (.arr (mergedQuery qW qL)) ∧
    ((mergedQuery qW qL).map jsKey).Nodup ∧
    (∀ kv, kv ∈ (mergedQuery qW qL).map jsKey ↔ (kv ∈ qW.map jsKey ∨ kv ∈ qL.map jsKey)) ∧
    (∀ q ∈ qW, q ∈ mergedQuery qW qL) := by
  have hflat :
      (qL.filter (fun itv => !((qW.map jsKey).contains (jsKey itv)))).flatMap concatSpread =
        qL.filter (fun itv => !((qW.map jsKey).contains (jsKey itv))) :=
    flatMap_concatSpread_of_no_arr (fun q hq => hnarrL q (List.mem_of_mem_filter hq))
  have hmq : mergedQuery qW qL =
      qW ++ qL.filter (fun itv => !((qW.map jsKey).contains (jsKey itv))) := by
    rw [mergedQuery, hflat]
  have hfilter :
      List.Sublist ((qL.filter (fun itv => !((qW.map jsKey).contains (jsKey itv)))).map jsKey)
        (qL.map jsKey) := List.Sublist.map jsKey (List.filter_sublist qL)
  refine ⟨?_, ?_, ?_, fun q hq => List.mem_append_left _ hq⟩
  · rw [mergeItems_request p s mode hmode, hw, hl]
    show getF (dmLoop lfs lfs wfs) "query" = _
    rw [dmLoop_getF_query wfs lfs lfs qW (getF_some_mem hqw) hkeys]
    simp only [queryNew, mergedQuery, hql, Option.getD_some]
  · rw [hmq, List.map_append]
    refine List.Nodup.append hndW (hndL.sublist hfilter) ?_
    intro kv h1 h2
    rcases List.mem_map.mp h2 with ⟨itv, hitv, rfl⟩
    have hpred := (List.mem_filter.mp hitv).2
    rw [Bool.not_eq_true'] at hpred
    have hc := (containsJ_iff _ _).mpr h1
    rw [hpred] at hc
    exact Bool.noConfusion hc
  · intro kv
    rw [hmq, List.map_append, List.mem_append]
    constructor
    · rintro (h | h)
      · exact .inl h
      · rcases List.mem_map.mp h with ⟨itv, hitv, rfl⟩
        exact .inr (List.mem_map_of_mem jsKey (List.mem_of_mem_filter hitv))
    · rintro (h | h)
      · exact .inl h
      · by_cases hin : kv ∈ qW.map jsKey
        · exact .inl hin
        · right
          rcases List.mem_map.mp h with ⟨itv, hitv, rfl⟩
          refine List.mem_map_of_mem jsKey (List.mem_filter.mpr ⟨hitv, ?_⟩)
          rw [Bool.not_eq_true']
          exact Bool.eq_false_iff.mpr (fun hc => hin ((containsJ_iff _ _).mp hc))

/--
Claim C2, as stated, is false: when the winning side's query list itself
repeats a key (here two parameters with key "a"), the merged query list
contains that key twice, not exactly once.
-/
theorem c2_counterexample :
    getF (objF (mergeItems c2p c2s .preservePostman).attrs.request) "query" =
        some (.arr [qprm1, qprm2]) ∧
      JVal.str "a" ∈ [qprm1, qprm2].map jsKey ∧
      ([qprm1, qprm2].map jsKey).count (JVal.str "a") = 2 := by
  decide

/-- Witness for c2_query_union: the specification's scenario 3 (debug on
both sides, redirect only incoming, PreserveAuthoritative). -/
theorem c2_query_union_witness :
    getF (objF (mergeItems wc2p wc2s .preservePostman).attrs.request) "query" =
      some (.arr [wqd, wqr]) := by
  have h := c2_query_union wc2p wc2s .preservePostman
    [("query", .arr [wqd])] [("query", .arr [wqd2, wqr])] [wqd] [wqd2, wqr]
    (by decide) rfl rfl (by decide) (by decide) (by decide) (by decide) (by decide) (by decide)
  rw [h.1]
  decide

/--
Claim C4, as stated, is false for the response rule: a present but empty
response list on the winning side is truthy in JavaScript, so it wins and
the loser's non-empty saved examples are discarded (the claim predicts the
loser's list).
-/
theorem c4_counterexample :
    (mergeItems c4p c4s .preserveSwagger).attrs.response = some [] ∧
      (mergeItems c4p c4s .preserveSwagger).attrs.response ≠ some [JVal.str "saved"] := by
  decide

/--
Claim C4 (amended): for a matched pair under a non-Replace policy, the
merged response list is the winner's whenever the winner's response field
is present (even as an empty list), and the loser's when it is absent; the
merged description is the winner's whenever it is a nonempty string, and
the loser's when it is absent or empty.
-/
theorem c4_response_description (p s : Item) (mode : MergeMode) (hmode : mode ≠ .replace) :
    ((winnerOf p s mode).attrs.response ≠ none →
      (mergeItems p s mode).attrs.response = (winnerOf p s mode).attrs.response) ∧
    ((winnerOf p s mode).attrs.response = none →
      (mergeItems p s mode).attrs.response = (loserOf p s mode).attrs.response) ∧
    (∀ d, (winnerOf p s mode).attrs.description = some d → d ≠ "" →
      (mergeItems p s mode).attrs.description = some d) ∧
    (((winnerOf p s mode).attrs.description = none ∨
        (winnerOf p s mode).attrs.description = some "") →
      (mergeItems p s mode).attrs.description = (loserOf p s mode).attrs.description) := by
  obtain ⟨pn, pa, psub⟩ := p
  obtain ⟨sn, sa, ssub⟩ := s
  cases mode with
  | replace => exact absurd rfl hmode
  | preservePostman =>
    refine ⟨?_, ?_, ?_, ?_⟩
    · intro h
      cases hr : pa.response with
      | none => exact absurd hr h
      | some l => simp [mergeItems, Item.attrs, winnerOf, jsOrResp, hr]
    · intro h
      simp only [winnerOf, Item.attrs] at h
      simp [mergeItems, Item.attrs, loserOf, jsOrResp, h]
    · intro d hd hne
      simp only [winnerOf, Item.attrs] at hd
      simp [mergeItems, Item.attrs, jsOrStr, hd, hne]
    · intro h
      simp only [winnerOf, Item.attrs] at h
      rcases h with h | h <;> simp [mergeItems, Item.attrs, loserOf, jsOrStr, h]
  | preserveSwagger =>
    refine ⟨?_, ?_, ?_, ?_⟩
    · intro h
      cases hr : sa.response with
      | none => exact absurd hr h
      | some l => simp [mergeItems, Item.attrs, winnerOf, jsOrResp, hr]
    · intro h
      simp only [winnerOf, Item.attrs] at h
      simp [mergeItems, Item.attrs, loserOf, jsOrResp, h]
    · intro d hd hne
      simp only [winnerOf, Item.attrs] at hd
      simp [mergeItems, Item.attrs, jsOrStr, hd, hne]
    · intro h
      simp only [winnerOf, Item.attrs] at h
      rcases h with h | h <;> simp [mergeItems, Item.attrs, loserOf, jsOrStr, h]

/-- Witness for c4_response_description: winner without a response and with
an absent description falls back to the loser on both fields. -/
theorem c4_response_description_witness :
    (mergeItems (leaf0 "x") c4p .preservePostman).attrs.response =
        (loserOf (leaf0 "x") c4p .preservePostman).attrs.response ∧
      (mergeItems (leaf0 "x") c4p .preservePostman).attrs.description =
        (loserOf (leaf0 "x") c4p .preservePostman).attrs.description := by
  have h := c4_response_description (leaf0 "x") c4p .preservePostman (by decide)
  exact ⟨h.2.1 (by decide), h.2.2.2 (.inl (by decide))⟩

/--
Claim C7, as stated, is false: the merged leaves of the two
policy-swapped calls differ, because the stable identifier, the id
fallback and the spread base are always taken from the authoritative-slot
argument (here the two sides carry different stable identifiers).
-/
theorem c7_counterexample :
    mergeItems c7p c7s .preservePostman ≠ mergeItems c7s c7p .preserveSwagger := by
  decide

/--
Claim C7 (amended): swapping the two inputs while swapping
PreserveAuthoritative and PreserveIncoming yields the same merged request,
response and description (the attribute-merge rule is symmetric in the
winner), but not the same full leaf: _postman_id always follows the
authoritative-slot argument of each call.
-/
theorem c7_policy_symmetry (p s : Item) :
    (mergeItems p s .preservePostman).attrs.request =
        (mergeItems s p .preserveSwagger).attrs.request ∧
      (mergeItems p s .preservePostman).attrs.response =
        (mergeItems s p .preserveSwagger).attrs.response ∧
      (mergeItems p s .preservePostman).attrs.description =
        (mergeItems s p .preserveSwagger).attrs.description ∧
      (mergeItems p s .preservePostman).attrs.pid = p.attrs.pid ∧
      (mergeItems s p .preserveSwagger).attrs.pid = s.attrs.pid :=
  ⟨rfl, rfl, rfl, rfl, rfl⟩

/-! ### Tagging lemmas -/

theorem tagTree_name (source : String) (it : Item) : (tagTree source it).name = it.name := by
  cases it; rfl

theorem tagTree_sub (source : String) (it : Item) :
    (tagTree source it).sub = tagTrees source it.sub := by
  cases it; rfl

theorem tagTrees_eq_map (source : String) :
    ∀ l : List Item, tagTrees source l = l.map (tagTree source) := by
  intro l
  induction l with
  | nil => rfl
  | cons it rest ih => simp only [tagTrees, List.map_cons, ih]

theorem tagTrees_eq_nil (source : String) {l : List Item} :
    tagTrees source l = [] ↔ l = [] := by
  cases l <;> simp [tagTrees]

theorem tagTrees_names (source : String) (l : List Item) :
    (tagTrees source l).map Item.name = l.map Item.name := by
  rw [tagTrees_eq_map, List.map_map]
  exact List.map_congr_left fun it _ => tagTree_name source it

/-! ### Claim C5: sort determinism -/

/--
Claim C5 (amended): the sibling sequence produced by each reconciliation
call — the root sequence of the merge, and hence, through the recurrence,
the child list of every folder merged from both sides — is sorted by
ascending name under every policy and for all inputs.  The claim's
"at every depth" part fails: the children of a folder present on only one
side are emitted in their input order (see the counterexample).
-/
theorem mergeCollectionMaps_sorted (p s : CMap) (mode : MergeMode) :
    (mergeCollectionMaps p s mode).Sorted (fun a b => byName a b = true) := by
  cases mode <;> exact sortByName_sorted _

/--
Claim C5, as stated, is false: with an authoritative-only folder F whose
children arrive as [b, a], the merged output keeps those children in input
order at depth one, so not every sibling sequence of the output is sorted.
-/
theorem c5_counterexample :
    allSortedL (mergeTrees [] [folder0 "F" [leaf0 "b", leaf0 "a"]] .preservePostman) = false ∧
      (mergeTrees [] [folder0 "F" [leaf0 "b", leaf0 "a"]] .preservePostman).map
          (fun it => (it.name, it.sub.map Item.name)) = [("F", ["b", "a"])] := by
  decide

/-! ### Claim C3: Replace mode -/

/--
Claim C3, as stated, is false: under Replace the output is not the incoming
tree sorted at every level — only the top level is sorted, the children of
each folder are reproduced in their input order.
-/
theorem c3_counterexample :
    allSortedL (mergeTrees [folder0 "F" [leaf0 "b", leaf0 "a"]] [] .replace) = false ∧
      mergeTrees [folder0 "F" [leaf0 "b", leaf0 "a"]] [] .replace ≠
        deepSortL (tagTrees "swagger" [folder0 "F" [leaf0 "b", leaf0 "a"]]) ∧
      allSortedL (deepSortL (tagTrees "swagger" [folder0 "F" [leaf0 "b", leaf0 "a"]])) = true := by
  decide

/--
Claim C3 (amended): under Replace the output consists of exactly the
incoming tree's top-level nodes (provenance-tagged, their subtrees
reproduced unchanged in input order), reordered so that the top level is
sorted by ascending name; no node of the authoritative tree appears.  The
sibling-name uniqueness invariant of the data model is assumed at the top
level of the incoming tree (the indexing maps collapse duplicates).
-/
theorem c3_replace (T A : List Item) (hnd : (T.map Item.name).Nodup) :
    List.Perm (mergeTrees T A .replace) (tagTrees "swagger" T) ∧
      (mergeTrees T A .replace).Sorted (fun a b => byName a b = true) := by
  constructor
  · have hnd2 : ((tagTrees "swagger" T).map Item.name).Nodup := by
      rw [tagTrees_names]
      exact hnd
    show List.Perm (sortByName ((levelMap (tagTrees "swagger" T)).items.map (fun pr => pr.2) ++
      (levelMap (tagTrees "swagger" T)).folders.map (fun pr => pr.2))) _
    refine (sortByName_perm _).trans ?_
    rw [levelMap_of_nodup hnd2]
    show List.Perm ((assocOf isLeafB _).map Prod.snd ++ (assocOf isFolderB _).map Prod.snd) _
    rw [assocOf_values, assocOf_values]
    have : List.filter isFolderB (tagTrees "swagger" T) =
        List.filter (fun x => !(isLeafB x)) (tagTrees "swagger" T) := rfl
    rw [this]
    exact List.filter_append_perm _ _
  · exact sortByName_sorted _

/-- Witness for c3_replace at a concrete unsorted incoming pair and a
nonempty discarded authoritative tree. -/
theorem c3_replace_witness :
    List.Perm (mergeTrees [leaf0 "b", leaf0 "a"] [leaf0 "c"] .replace)
        (tagTrees "swagger" [leaf0 "b", leaf0 "a"]) ∧
      (mergeTrees [leaf0 "b", leaf0 "a"] [leaf0 "c"] .replace).Sorted
        (fun a b => byName a b = true) :=
  c3_replace [leaf0 "b", leaf0 "a"] [leaf0 "c"] (by decide)

/-! ### Membership in the merged level -/

theorem mem_processedNames {p s : CMap} {N : String} :
    N ∈ processedNames p s ↔
      ((∃ pr ∈ p.items, pr.1 = N) ∧ (lookupA s.items N).isSome) ∨
      ((∃ pr ∈ p.folders, pr.1 = N) ∧ (lookupA s.folders N).isSome) := by
  simp only [processedNames, List.mem_append, List.mem_filterMap]
  constructor
  · rintro (⟨pr, hpr, hf⟩ | ⟨pr, hpr, hf⟩)
    · split_ifs at hf with hs
      cases hf
      exact .inl ⟨⟨pr, hpr, rfl⟩, hs⟩
    · split_ifs at hf with hs
      cases hf
      exact .inr ⟨⟨pr, hpr, rfl⟩, hs⟩
  · rintro (⟨⟨pr, hpr, he⟩, hs⟩ | ⟨⟨pr, hpr, he⟩, hs⟩)
    · refine .inl ⟨pr, hpr, ?_⟩
      rw [he, if_pos hs]
    · refine .inr ⟨pr, hpr, ?_⟩
      rw [he, if_pos hs]

theorem mem_mergeCollectionMaps {p s : CMap} {mode : MergeMode} (hmode : mode ≠ .replace)
    (u : Item) :
    u ∈ mergeCollectionMaps p s mode ↔
      ((∃ pr ∈ p.items, (match lookupA s.items pr.1 with
          | some sit => mergeItems pr.2 sit mode
          | none => pr.2) = u) ∨
       (∃ pr ∈ p.folders, (match lookupA s.folders pr.1 with
          | some sf => mergedFolder pr.2
              (mergeCollectionMaps (levelMap pr.2.sub) (levelMap sf.sub) mode)
          | none => pr.2) = u) ∨
       (∃ pr ∈ s.items, (processedNames p s).contains pr.1 = false ∧ pr.2 = u) ∨
       (∃ pr ∈ s.folders, (processedNames p s).contains pr.1 = false ∧ pr.2 = u)) := by
  rw [mergeCollectionMaps_eq]
  cases mode with
  | replace => exact absurd rfl hmode
  | preservePostman =>
    rw [show (match MergeMode.preservePostman with
      | MergeMode.replace =>
        sortByName (s.items.map (fun pr => pr.2) ++ s.folders.map (fun pr => pr.2))
      | _ =>
        sortByName
          ((p.items.map (fun pr =>
            match lookupA s.items pr.1 with
            | some sit => mergeItems pr.2 sit MergeMode.preservePostman
            | none => pr.2)) ++
          (p.folders.map (fun pr =>
            match lookupA s.folders pr.1 with
            | some sf =>
              mergedFolder pr.2
                (mergeCollectionMaps (levelMap pr.2.sub) (levelMap sf.sub) MergeMode.preservePostman)
            | none => pr.2)) ++
          ((s.items.filter (fun pr => !((processedNames p s).contains pr.1))).map (fun pr => pr.2)) ++
          ((s.folders.filter (fun pr => !((processedNames p s).contains pr.1))).map (fun pr => pr.2)))) =
      sortByName
          ((p.items.map (fun pr =>
            match lookupA s.items pr.1 with
            | some sit => mergeItems pr.2 sit MergeMode.preservePostman
            | none => pr.2)) ++
          (p.folders.map (fun pr =>
            match lookupA s.folders pr.1 with
            | some sf =>
              mergedFolder pr.2
                (mergeCollectionMaps (levelMap pr.2.sub) (levelMap sf.sub) MergeMode.preservePostman)
            | none => pr.2)) ++
          ((s.items.filter (fun pr => !((processedNames p s).contains pr.1))).map (fun pr => pr.2)) ++
          ((s.folders.filter (fun pr => !((processedNames p s).contains pr.1))).map (fun pr => pr.2)))
      from rfl]
    rw [mem_sortByName]
    simp only [List.mem_append, List.mem_map, List.mem_filter, Bool.not_eq_true']
    aesop
  | preserveSwagger =>
    rw [show (match MergeMode.preserveSwagger with
      | MergeMode.replace =>
        sortByName (s.items.map (fun pr => pr.2) ++ s.folders.map (fun pr => pr.2))
      | _ =>
        sortByName
          ((p.items.map (fun pr =>
            match lookupA s.items pr.1 with
            | some sit => mergeItems pr.2 sit MergeMode.preserveSwagger
            | none => pr.2)) ++
          (p.folders.map (fun pr =>
            match lookupA s.folders pr.1 with
            | some sf =>
              mergedFolder pr.2
                (mergeCollectionMaps (levelMap pr.2.sub) (levelMap sf.sub) MergeMode.preserveSwagger)
            | none => pr.2)) ++
          ((s.items.filter (fun pr => !((processedNames p s).contains pr.1))).map (fun pr => pr.2)) ++
          ((s.folders.filter (fun pr => !((processedNames p s).contains pr.1))).map (fun pr => pr.2)))) =
      sortByName
          ((p.items.map (fun pr =>
            match lookupA s.items pr.1 with
            | some sit => mergeItems pr.2 sit MergeMode.preserveSwagger
            | none => pr.2)) ++
          (p.folders.map (fun pr =>
            match lookupA s.folders pr.1 with
            | some sf =>
              mergedFolder pr.2
                (mergeCollectionMaps (levelMap pr.2.sub) (levelMap sf.sub) MergeMode.preserveSwagger)
            | none => pr.2)) ++
          ((s.items.filter (fun pr => !((processedNames p s).contains pr.1))).map (fun pr => pr.2)) ++
          ((s.folders.filter (fun pr => !((processedNames p s).contains pr.1))).map (fun pr => pr.2)))
      from rfl]
    rw [mem_sortByName]
    simp only [List.mem_append, List.mem_map, List.mem_filter, Bool.not_eq_true']
    aesop

theorem levelMap_items_lookup {l : List Item} {N : String}
    (h : ∃ it ∈ l, it.name = N ∧ it.sub = []) :
    ∃ v, (N, v) ∈ (levelMap l).items ∧ v.name = N ∧ v.sub = [] := by
  have hk : N ∈ (levelMap l).items.map Prod.fst := by
    rcases h with ⟨it, hit, h1, h2⟩
    exact levelMap_items_keys.mpr ⟨it, hit, h2, h1⟩
  rcases List.mem_map.mp hk with ⟨pr, hpr, he⟩
  have hprops := levelMap_items_entry (show (pr.1, pr.2) ∈ _ from hpr)
  subst he
  exact ⟨pr.2, hpr, hprops.2.2, hprops.2.1⟩

theorem levelMap_folders_lookup {l : List Item} {N : String}
    (h : ∃ it ∈ l, it.name = N ∧ it.sub ≠ []) :
    ∃ v, (N, v) ∈ (levelMap l).folders ∧ v.name = N ∧ v.sub ≠ [] := by
  have hk : N ∈ (levelMap l).folders.map Prod.fst := by
    rcases h with ⟨it, hit, h1, h2⟩
    exact levelMap_folders_keys.mpr ⟨it, hit, h2, h1⟩
  rcases List.mem_map.mp hk with ⟨pr, hpr, he⟩
  have hprops := levelMap_folders_entry (show (pr.1, pr.2) ∈ _ from hpr)
  subst he
  exact ⟨pr.2, hpr, hprops.2.2, hprops.2.1⟩

theorem levelMap_items_lookup_none {l : List Item} {N : String}
    (h : ∀ it ∈ l, it.name = N → it.sub ≠ []) : lookupA (levelMap l).items N = none := by
  refine lookupA_eq_none.mpr fun pr hpr he => ?_
  have hprops := levelMap_items_entry (show (pr.1, pr.2) ∈ _ from hpr)
  exact h pr.2 hprops.1 (he ▸ hprops.2.2) hprops.2.1

theorem levelMap_folders_lookup_none {l : List Item} {N : String}
    (h : ∀ it ∈ l, it.name = N → it.sub = []) : lookupA (levelMap l).folders N = none := by
  refine lookupA_eq_none.mpr fun pr hpr he => ?_
  have hprops := levelMap_folders_entry (show (pr.1, pr.2) ∈ _ from hpr)
  exact hprops.2.1 (h pr.2 hprops.1 (he ▸ hprops.2.2))

theorem tagTrees_exists_leaf {source : String} {l : List Item} {N : String}
    (h : ∃ it ∈ l, it.name = N ∧ it.sub = []) :
    ∃ it ∈ tagTrees source l, it.name = N ∧ it.sub = [] := by
  rcases h with ⟨it, hit, h1, h2⟩
  refine ⟨tagTree source it, ?_, ?_, ?_⟩
  · rw [tagTrees_eq_map]
    exact List.mem_map_of_mem _ hit
  · rw [tagTree_name, h1]
  · rw [tagTree_sub, h2]
    rfl

theorem tagTrees_exists_folder {source : String} {l : List Item} {N : String}
    (h : ∃ it ∈ l, it.name = N ∧ it.sub ≠ []) :
    ∃ it ∈ tagTrees source l, it.name = N ∧ it.sub ≠ [] := by
  rcases h with ⟨it, hit, h1, h2⟩
  refine ⟨tagTree source it, ?_, ?_, ?_⟩
  · rw [tagTrees_eq_map]
    exact List.mem_map_of_mem _ hit
  · rw [tagTree_name, h1]
  · rw [tagTree_sub]
    intro he
    exact h2 ((tagTrees_eq_nil source).mp he)

theorem tagTrees_all_leaf {source : String} {l : List Item} {N : String}
    (h : ∀ it ∈ l, it.name = N → it.sub = []) :
    ∀ it ∈ tagTrees source l, it.name = N → it.sub = [] := by
  intro it hit hn
  rw [tagTrees_eq_map] at hit
  rcases List.mem_map.mp hit with ⟨jt, hjt, rfl⟩
  rw [tagTree_name] at hn
  rw [tagTree_sub, h jt hjt hn]
  rfl

theorem tagTrees_all_folder {source : String} {l : List Item} {N : String}
    (h : ∀ it ∈ l, it.name = N → it.sub ≠ []) :
    ∀ it ∈ tagTrees source l, it.name = N → it.sub ≠ [] := by
  intro it hit hn
  rw [tagTrees_eq_map] at hit
  rcases List.mem_map.mp hit with ⟨jt, hjt, rfl⟩
  rw [tagTree_name] at hn
  rw [tagTree_sub]
  intro he
  exact h jt hjt hn ((tagTrees_eq_nil source).mp he)

/--
Claim C10: when a name N stands for a leaf in one input tree and for a
folder (at the same level) in the other — and N names nothing else at that
level of either tree — merging under either preserve policy emits both
nodes: the output contains a leaf named N and a folder named N side by
side, so sibling-name uniqueness does not survive the merge.  The two
conjuncts cover the two assignments of leaf and folder to the
authoritative (A) and incoming (I) trees.
-/
theorem c10_leaf_folder_coexist (I A : List Item) (N : String) (mode : MergeMode)
    (hmode : mode ≠ .replace) :
    ((∃ it ∈ A, it.name = N ∧ it.sub = []) →
     (∀ it ∈ A, it.name = N → it.sub = []) →
     (∃ jt ∈ I, jt.name = N ∧ jt.sub ≠ []) →
     (∀ jt ∈ I, jt.name = N → jt.sub ≠ []) →
       (∃ u ∈ mergeTrees I A mode, u.name = N ∧ u.sub = []) ∧
       (∃ v ∈ mergeTrees I A mode, v.name = N ∧ v.sub ≠ [])) ∧
    ((∃ it ∈ A, it.name = N ∧ it.sub ≠ []) →
     (∀ it ∈ A, it.name = N → it.sub ≠ []) →
     (∃ jt ∈ I, jt.name = N ∧ jt.sub = []) →
     (∀ jt ∈ I, jt.name = N → jt.sub = []) →
       (∃ u ∈ mergeTrees I A mode, u.name = N ∧ u.sub = []) ∧
       (∃ v ∈ mergeTrees I A mode, v.name = N ∧ v.sub ≠ [])) := by
  constructor
  · intro hAleaf hAonly hIfolder hIonly
    have hsI_none : lookupA (buildMapL "swagger" I).items N = none :=
      levelMap_items_lookup_none (tagTrees_all_folder hIonly)
    have hpF_none : lookupA (buildMapL "postman" A).folders N = none :=
      levelMap_folders_lookup_none (tagTrees_all_leaf hAonly)
    obtain ⟨v, hv, hvn, hvs⟩ := levelMap_items_lookup (tagTrees_exists_leaf hAleaf)
    obtain ⟨w, hw, hwn, hws⟩ := levelMap_folders_lookup (tagTrees_exists_folder hIfolder)
    constructor
    · refine ⟨v, ?_, hvn, hvs⟩
      refine (mem_mergeCollectionMaps hmode v).mpr (.inl ⟨(N, v), hv, ?_⟩)
      show (match lookupA (buildMapL "swagger" I).items N with
        | some sit => mergeItems v sit mode
        | none => v) = v
      rw [hsI_none]
    · refine ⟨w, ?_, hwn, hws⟩
      refine (mem_mergeCollectionMaps hmode w).mpr (.inr (.inr (.inr ⟨(N, w), hw, ?_, rfl⟩)))
      apply contains_eq_false_of_not_mem
      intro hmem
      rcases mem_processedNames.mp hmem with ⟨-, hs⟩ | ⟨⟨pr, hpr, he⟩, -⟩
      · rw [hsI_none] at hs
        exact Bool.noConfusion hs
      · exact (lookupA_eq_none.mp hpF_none) pr hpr he
  · intro hAfolder hAonly hIleaf hIonly
    have hsF_none : lookupA (buildMapL "swagger" I).folders N = none :=
      levelMap_folders_lookup_none (tagTrees_all_leaf hIonly)
    have hpI_none : lookupA (buildMapL "postman" A).items N = none :=
      levelMap_items_lookup_none (tagTrees_all_folder hAonly)
    obtain ⟨v, hv, hvn, hvs⟩ := levelMap_folders_lookup (tagTrees_exists_folder hAfolder)
    obtain ⟨w, hw, hwn, hws⟩ := levelMap_items_lookup (tagTrees_exists_leaf hIleaf)
    constructor
    · refine ⟨w, ?_, hwn, hws⟩
      refine (mem_mergeCollectionMaps hmode w).mpr (.inr (.inr (.inl ⟨(N, w), hw, ?_, rfl⟩)))
      apply contains_eq_false_of_not_mem
      intro hmem
      rcases mem_processedNames.mp hmem with ⟨⟨pr, hpr, he⟩, -⟩ | ⟨-, hs⟩
      · exact (lookupA_eq_none.mp hpI_none) pr hpr he
      · rw [hsF_none] at hs
        exact Bool.noConfusion hs
    · refine ⟨v, ?_, hvn, hvs⟩
      refine (mem_mergeCollectionMaps hmode v).mpr (.inr (.inl ⟨(N, v), hv, ?_⟩))
      show (match lookupA (buildMapL "swagger" I).folders N with
        | some sf => mergedFolder v
            (mergeCollectionMaps (levelMap v.sub) (levelMap sf.sub) mode)
        | none => v) = v
      rw [hsF_none]

/-- Witness for c10_leaf_folder_coexist: folder N in the incoming tree,
leaf N in the authoritative tree, PreserveAuthoritative policy. -/
theorem c10_leaf_folder_coexist_witness :
    (∃ u ∈ mergeTrees [folder0 "N" [leaf0 "x"]] [leaf0 "N"] .preservePostman,
        u.name = "N" ∧ u.sub = []) ∧
      (∃ v ∈ mergeTrees [folder0 "N" [leaf0 "x"]] [leaf0 "N"] .preservePostman,
        v.name = "N" ∧ v.sub ≠ []) :=
  (c10_leaf_folder_coexist [folder0 "N" [leaf0 "x"]] [leaf0 "N"] "N" .preservePostman
    (by decide)).1
    (by decide) (by decide)
    ⟨folder0 "N" [leaf0 "x"], by decide⟩
    (by decide)

/-! ### Claim C6: identifier normalization -/

theorem tagTree_attrs (source : String) (it : Item) :
    (tagTree source it).attrs = { it.attrs with src := some source } := by
  cases it; rfl

theorem normIds_name (it : Item) : (normIds it).name = it.name := by
  cases it; rfl

theorem normIds_pid (it : Item) : (normIds it).attrs.pid = it.attrs.pid := by
  cases it with
  | mk n a sub =>
    simp only [normIds, Item.attrs]
    split_ifs <;> rfl

theorem normIds_id_of_truthy {it : Item} (h : truthyStr it.attrs.pid = true) :
    (normIds it).attrs.id = it.attrs.pid := by
  cases it with
  | mk n a sub =>
    simp only [Item.attrs] at h
    simp only [normIds, Item.attrs, if_pos h]

theorem normIdsL_eq_map : ∀ l : List Item, normIdsL l = l.map normIds := by
  intro l
  induction l with
  | nil => rfl
  | cons it rest ih => simp only [normIdsL, List.map_cons, ih]

mutual
theorem idsOkI_normIds : ∀ it : Item, idsOkI (normIds it) = true
  | .mk n a sub => by
    simp only [normIds, idsOkI]
    rw [idsOkL_normIdsL sub, Bool.and_true]
    cases htr : truthyStr a.pid with
    | false => simp [htr]
    | true => simp [htr]
theorem idsOkL_normIdsL : ∀ l : List Item, idsOkL (normIdsL l) = true
  | [] => rfl
  | it :: rest => by
    simp only [normIdsL, idsOkL, idsOkI_normIds it, idsOkL_normIdsL rest, Bool.and_self]
end

/--
Claim C6, as stated, is false at a present-but-empty stable identifier: a
node with _postman_id equal to the empty string (present, but falsy in
JavaScript) keeps its old id, so the normalization does not copy the
stable field for every node where it is present, and the merged node's id
differs from the authoritative node's stable identifier.
-/
theorem c6_counterexample :
    (mergeFull [] [c6p] .preservePostman).map
        (fun it => (it.name, it.attrs.pid, it.attrs.id)) =
      [("e", some "", some "x")] := by
  decide

/--
Claim C6 (amended: a stable identifier means a truthy, i.e. nonempty,
_postman_id).  First conjunct: after every merge, under every policy, every
node of the output tree whose _postman_id is truthy has id equal to it —
the normalization pass overrides whatever attribute merging produced.
Second conjunct: under the preserve policies, every top-level authoritative
node carrying a nonempty stable identifier yields an output node with the
same name whose _postman_id and id both equal that identifier (top-level
sibling names assumed unique, the data-model invariant).
-/
theorem c6_id_stability :
    (∀ (sw pm : List Item) (mode : MergeMode), idsOkL (mergeFull sw pm mode) = true) ∧
    (∀ (sw pm : List Item) (mode : MergeMode), mode ≠ .replace →
      (pm.map Item.name).Nodup →
      ∀ it ∈ pm, ∀ ps : String, it.attrs.pid = some ps → ps ≠ "" →
        ∃ out ∈ mergeFull sw pm mode,
          out.name = it.name ∧ out.attrs.pid = some ps ∧ out.attrs.id = some ps) := by
  constructor
  · intro sw pm mode
    exact idsOkL_normIdsL _
  · intro sw pm mode hmode hnd it hit ps hps hne
    have hnd2 : ((tagTrees "postman" pm).map Item.name).Nodup := by
      rw [tagTrees_names]; exact hnd
    have hmm : tagTree "postman" it ∈ tagTrees "postman" pm := by
      rw [tagTrees_eq_map]; exact List.mem_map_of_mem _ hit
    have hpid : (tagTree "postman" it).attrs.pid = some ps := by
      rw [tagTree_attrs]; exact hps
    have hname : (tagTree "postman" it).name = it.name := tagTree_name "postman" it
    -- the tagged node sits in one of the two postman maps, and some merged
    -- output node keeps its name and stable identifier
    have hcore : ∃ u ∈ mergeTrees sw pm mode, u.name = it.name ∧ u.attrs.pid = some ps := by
      by_cases hsub : (tagTree "postman" it).sub = []
      · have hentry : ((tagTree "postman" it).name, tagTree "postman" it) ∈
            (levelMap (tagTrees "postman" pm)).items := by
          rw [levelMap_of_nodup hnd2]
          exact List.mem_map_of_mem _
            (List.mem_filter.mpr ⟨hmm, by simp [isLeafB, hsub]⟩)
        refine ⟨_, (mem_mergeCollectionMaps hmode _).mpr
          (.inl ⟨((tagTree "postman" it).name, tagTree "postman" it), hentry, rfl⟩), ?_⟩
        cases hl : lookupA (buildMapL "swagger" sw).items (tagTree "postman" it).name with
        | none => exact ⟨hname, hpid⟩
        | some sit =>
          rw [mergeItems_name, mergeItems_pid]
          exact ⟨hname, hpid⟩
      · have hentry : ((tagTree "postman" it).name, tagTree "postman" it) ∈
            (levelMap (tagTrees "postman" pm)).folders := by
          rw [levelMap_of_nodup hnd2]
          exact List.mem_map_of_mem _
            (List.mem_filter.mpr ⟨hmm, by simp [isFolderB, List.isEmpty_iff, hsub]⟩)
        refine ⟨_, (mem_mergeCollectionMaps hmode _).mpr
          (.inr (.inl ⟨((tagTree "postman" it).name, tagTree "postman" it), hentry, rfl⟩)), ?_⟩
        cases hl : lookupA (buildMapL "swagger" sw).folders (tagTree "postman" it).name with
        | none => exact ⟨hname, hpid⟩
        | some sf => exact ⟨hname, hpid⟩
    obtain ⟨u, hu, hun, hupid⟩ := hcore
    refine ⟨normIds u, ?_, ?_, ?_, ?_⟩
    · show normIds u ∈ normIdsL (mergeTrees sw pm mode)
      rw [normIdsL_eq_map]
      exact List.mem_map_of_mem _ hu
    · rw [normIds_name, hun]
    · rw [normIds_pid, hupid]
    · rw [normIds_id_of_truthy (by simp [truthyStr, hupid, hne]), hupid]

/-- Witness for c6_id_stability: one authoritative leaf with stable
identifier "a" survives the merge with name, _postman_id and id all
carrying it. -/
theorem c6_id_stability_witness :
    idsOkL (mergeFull [] [c7p] .preservePostman) = true ∧
      (∃ out ∈ mergeFull [] [c7p] .preservePostman,
        out.name = c7p.name ∧ out.attrs.pid = some "a" ∧ out.attrs.id = some "a") :=
  ⟨c6_id_stability.1 [] [c7p] .preservePostman,
    c6_id_stability.2 [] [c7p] .preservePostman (by decide) (by decide) c7p
      (by decide) "a" (by decide) (by decide)⟩

/-! ### Claim C8: malformed inputs -/

/--
Claim C8, as stated, is false: a truthy non-sequence node collection on
either side is not caught by the falsy guard of buildCollectionMap, so the
for-of loop of processItems throws a TypeError instead of returning a
best-effort tree.
-/
theorem c8_counterexample :
    mergeE .notSeq (.seq []) .preservePostman = .error () ∧
      mergeE (.seq []) .notSeq .preservePostman = .error () :=
  ⟨rfl, rfl⟩

/--
Claim C8 (amended): when either side's node collection is absent (falsy),
that side is treated exactly like an empty tree, and whenever neither side
is a truthy non-sequence the merge returns a tree for every policy; only a
truthy non-sequence collection makes it throw.
-/
theorem c8_malformed (sw pm : NodeField) (mode : MergeMode)
    (hsw : sw ≠ .notSeq) (hpm : pm ≠ .notSeq) :
    (∃ out, mergeE sw pm mode = .ok out) ∧
      mergeE .absent pm mode = mergeE (.seq []) pm mode ∧
      mergeE sw .absent mode = mergeE sw (.seq []) mode := by
  refine ⟨?_, rfl, rfl⟩
  cases sw with
  | notSeq => exact absurd rfl hsw
  | absent =>
    cases pm with
    | notSeq => exact absurd rfl hpm
    | absent => exact ⟨_, rfl⟩
    | seq l => exact ⟨_, rfl⟩
  | seq l =>
    cases pm with
    | notSeq => exact absurd rfl hpm
    | absent => exact ⟨_, rfl⟩
    | seq l2 => exact ⟨_, rfl⟩

/-- Witness for c8_malformed: an absent swagger collection against a
one-leaf postman collection merges successfully and as the empty tree
would. -/
theorem c8_malformed_witness :
    (∃ out, mergeE .absent (.seq [leaf0 "a"]) .preservePostman = .ok out) ∧
      mergeE .absent (.seq [leaf0 "a"]) .preservePostman =
        mergeE (.seq []) (.seq [leaf0 "a"]) .preservePostman ∧
      mergeE .absent .absent .preservePostman = mergeE .absent (.seq []) .preservePostman :=
  c8_malformed .absent (.seq [leaf0 "a"]) .preservePostman (by decide) (by decide)

/-! ### Names at a tree level -/

theorem mem_namesAt_nil {x : String} {l : List Item} :
    x ∈ namesAt [] l ↔ ∃ it ∈ l, it.name = x := by
  simp [namesAt, List.mem_map]

theorem mem_namesAt_cons {x n : String} {rest : List String} {l : List Item} :
    x ∈ namesAt (n :: rest) l ↔
      ∃ it ∈ l, it.name = n ∧ it.sub ≠ [] ∧ x ∈ namesAt rest it.sub := by
  simp only [namesAt, List.mem_flatten, List.mem_map, List.mem_filter]
  constructor
  · rintro ⟨ns, ⟨it, ⟨hit, hcond⟩, rfl⟩, hx⟩
    rw [Bool.and_eq_true] at hcond
    refine ⟨it, hit, by simpa using hcond.1, fun he => ?_, hx⟩
    have h2 := hcond.2
    rw [he] at h2
    simp at h2
  · rintro ⟨it, hit, h1, h2, hx⟩
    refine ⟨namesAt rest it.sub, ⟨it, ⟨hit, ?_⟩, rfl⟩, hx⟩
    obtain ⟨y, ys, hys⟩ := List.exists_cons_of_ne_nil h2
    rw [Bool.and_eq_true, hys]
    exact ⟨by simpa using h1, rfl⟩

theorem namesAt_congr {l l' : List Item} (h : ∀ it, it ∈ l ↔ it ∈ l')
    (path : List String) (x : String) : x ∈ namesAt path l ↔ x ∈ namesAt path l' := by
  cases path with
  | nil =>
    rw [mem_namesAt_nil, mem_namesAt_nil]
    constructor <;> rintro ⟨it, hit, hn⟩
    · exact ⟨it, (h it).mp hit, hn⟩
    · exact ⟨it, (h it).mpr hit, hn⟩
  | cons n rest =>
    rw [mem_namesAt_cons, mem_namesAt_cons]
    constructor <;> rintro ⟨it, hit, hn, hs, hx⟩
    · exact ⟨it, (h it).mp hit, hn, hs, hx⟩
    · exact ⟨it, (h it).mpr hit, hn, hs, hx⟩

theorem namesAt_nonempty {x : String} {path : List String} {l : List Item}
    (h : x ∈ namesAt path l) : l ≠ [] := by
  intro he
  subst he
  cases path with
  | nil => simp [namesAt] at h
  | cons n rest => simp [namesAt] at h

theorem namesAt_tagTrees (source : String) :
    ∀ (path : List String) (l : List Item) (x : String),
      x ∈ namesAt path (tagTrees source l) ↔ x ∈ namesAt path l := by
  intro path
  induction path with
  | nil =>
    intro l x
    rw [mem_namesAt_nil, mem_namesAt_nil]
    constructor
    · rintro ⟨it, hit, hn⟩
      rw [tagTrees_eq_map] at hit
      rcases List.mem_map.mp hit with ⟨jt, hjt, rfl⟩
      exact ⟨jt, hjt, by rw [← tagTree_name source jt, hn]⟩
    · rintro ⟨it, hit, hn⟩
      refine ⟨tagTree source it, ?_, by rw [tagTree_name, hn]⟩
      rw [tagTrees_eq_map]
      exact List.mem_map_of_mem _ hit
  | cons n rest ih =>
    intro l x
    rw [mem_namesAt_cons, mem_namesAt_cons]
    constructor
    · rintro ⟨it, hit, hn, hs, hx⟩
      rw [tagTrees_eq_map] at hit
      rcases List.mem_map.mp hit with ⟨jt, hjt, rfl⟩
      rw [tagTree_name] at hn
      rw [tagTree_sub] at hs hx
      refine ⟨jt, hjt, hn, fun he => hs (by rw [he]; rfl), ?_⟩
      exact (ih jt.sub x).mp hx
    · rintro ⟨it, hit, hn, hs, hx⟩
      refine ⟨tagTree source it, ?_, by rw [tagTree_name, hn], ?_, ?_⟩
      · rw [tagTrees_eq_map]
        exact List.mem_map_of_mem _ hit
      · rw [tagTree_sub]
        intro he
        exact hs ((tagTrees_eq_nil source).mp he)
      · rw [tagTree_sub]
        exact (ih it.sub x).mpr hx

/-! ### Sibling uniqueness -/

theorem levelUnique_cons {it : Item} {rest : List Item} :
    levelUnique (it :: rest) = true ↔
      (treeUnique it = true ∧ it.name ∉ rest.map Item.name ∧ levelUnique rest = true) := by
  cases it with
  | mk n a sub =>
    simp only [levelUnique, Bool.and_eq_true, Bool.not_eq_true']
    constructor
    · rintro ⟨⟨h1, h2⟩, h3⟩
      refine ⟨h1, ?_, h3⟩
      intro hm
      simp only [Item.name] at hm
      have hc := (containsB_iff _ _).mpr hm
      simp only [Item.name] at h2
      rw [h2] at hc
      exact Bool.noConfusion hc
    · rintro ⟨h1, h2, h3⟩
      exact ⟨⟨h1, contains_eq_false_of_not_mem (by simpa [Item.name] using h2)⟩, h3⟩

theorem levelUnique_names_nodup {l : List Item} (h : levelUnique l = true) :
    (l.map Item.name).Nodup := by
  induction l with
  | nil => simp
  | cons it rest ih =>
    rcases levelUnique_cons.mp h with ⟨-, h2, h3⟩
    simp only [List.map_cons, List.nodup_cons]
    exact ⟨h2, ih h3⟩

theorem levelUnique_mem_treeUnique {l : List Item} (h : levelUnique l = true)
    {it : Item} (hit : it ∈ l) : treeUnique it = true := by
  induction l with
  | nil => exact absurd hit (List.not_mem_nil _)
  | cons jt rest ih =>
    rcases levelUnique_cons.mp h with ⟨h1, -, h3⟩
    rcases List.mem_cons.mp hit with rfl | hm
    · exact h1
    · exact ih h3 hm

theorem treeUnique_sub {it : Item} (h : treeUnique it = true) :
    levelUnique it.sub = true := by
  cases it
  exact h

mutual
theorem treeUnique_tagTree (source : String) :
    ∀ it : Item, treeUnique (tagTree source it) = treeUnique it
  | .mk n a sub => by
    simp only [tagTree, treeUnique]
    exact levelUnique_tagTrees source sub
theorem levelUnique_tagTrees (source : String) :
    ∀ l : List Item, levelUnique (tagTrees source l) = levelUnique l
  | [] => rfl
  | (Item.mk n a sub) :: rest => by
    simp only [tagTrees, tagTree, levelUnique, treeUnique, Item.name, tagTrees_names]
    rw [levelUnique_tagTrees source sub, levelUnique_tagTrees source rest]
end

/-! ### Well-formedness of the level maps -/

/-- The shape invariant of a map built by indexing one level of a
well-formed tree: items are leaves keyed by their own name, folders are
nonempty-children nodes keyed by their own name with duplicate-free
subtrees, and no name is used twice across the two maps. -/
def MapWF (m : CMap) : Prop :=
  (∀ pr ∈ m.items, pr.2.name = pr.1 ∧ pr.2.sub = []) ∧
  (∀ pr ∈ m.folders, pr.2.name = pr.1 ∧ pr.2.sub ≠ [] ∧ levelUnique pr.2.sub = true) ∧
  (m.items.map Prod.fst ++ m.folders.map Prod.fst).Nodup

theorem assocOf_keys (sel : Item → Bool) (l : List Item) :
    (assocOf sel l).map Prod.fst = (l.filter sel).map Item.name := by
  simp [assocOf, List.map_map, Function.comp_def]

theorem mem_filterSplit {l : List Item} (it : Item) :
    it ∈ l.filter isLeafB ++ l.filter isFolderB ↔ it ∈ l := by
  rw [List.mem_append, List.mem_filter, List.mem_filter]
  constructor
  · rintro (⟨h, -⟩ | ⟨h, -⟩) <;> exact h
  · intro h
    by_cases hsel : isLeafB it
    · exact .inl ⟨h, hsel⟩
    · refine .inr ⟨h, ?_⟩
      simp only [isFolderB, Bool.not_eq_true']
      exact Bool.eq_false_iff.mpr (by simpa [isLeafB] using hsel)

theorem MapWF_levelMap {l : List Item} (h : levelUnique l = true) : MapWF (levelMap l) := by
  have hnd := levelUnique_names_nodup h
  refine ⟨?_, ?_, ?_⟩
  · intro pr hpr
    have hp := levelMap_items_entry (show (pr.1, pr.2) ∈ _ from hpr)
    exact ⟨hp.2.2, hp.2.1⟩
  · intro pr hpr
    have hp := levelMap_folders_entry (show (pr.1, pr.2) ∈ _ from hpr)
    exact ⟨hp.2.2, hp.2.1, treeUnique_sub (levelUnique_mem_treeUnique h hp.1)⟩
  · rw [levelMap_of_nodup hnd]
    show ((assocOf isLeafB l).map Prod.fst ++ (assocOf isFolderB l).map Prod.fst).Nodup
    rw [assocOf_keys, assocOf_keys, ← List.map_append]
    have hperm : List.Perm (l.filter isLeafB ++ l.filter isFolderB) l := by
      have : List.filter isFolderB l = List.filter (fun x => !(isLeafB x)) l := rfl
      rw [this]
      exact List.filter_append_perm _ _
    exact ((hperm.map Item.name).nodup_iff).mpr hnd

theorem lookupA_eq_of_mem_nodup {α : Type} {l : List (String × α)} {k : String} {v : α}
    (hnd : (l.map Prod.fst).Nodup) (h : (k, v) ∈ l) : lookupA l k = some v := by
  induction l with
  | nil => exact absurd h (List.not_mem_nil _)
  | cons pr rest ih =>
    simp only [List.map_cons, List.nodup_cons] at hnd
    rw [lookupA_eq_find, List.find?_cons]
    rcases List.mem_cons.mp h with rfl | hm
    · simp
    · have hne : (pr.1 == k) = false := by
        simp only [beq_eq_false_iff_ne, ne_eq]
        intro he
        exact hnd.1 (he ▸ List.mem_map_of_mem Prod.fst hm)
      rw [hne]
      rw [lookupA_eq_find] at ih
      exact ih hnd.2 hm

theorem levelMap_values_names {l : List Item} (hnd : (l.map Item.name).Nodup)
    (path : List String) (x : String) :
    x ∈ namesAt path ((levelMap l).items.map Prod.snd ++ (levelMap l).folders.map Prod.snd) ↔
      x ∈ namesAt path l := by
  rw [levelMap_of_nodup hnd]
  show x ∈ namesAt path ((assocOf isLeafB l).map Prod.snd ++ (assocOf isFolderB l).map Prod.snd) ↔ _
  rw [assocOf_values, assocOf_values]
  exact namesAt_congr mem_filterSplit path x

/-- The per-level union law: under a preserve policy, reading the names at
any path of the merged level yields exactly the union of the names read at
that path from the two input maps' stored nodes. -/
theorem namesAt_merge (mode : MergeMode) (hmode : mode ≠ .replace) :
    ∀ (path : List String) (p s : CMap), MapWF p → MapWF s → ∀ x : String,
      (x ∈ namesAt path (mergeCollectionMaps p s mode) ↔
        (x ∈ namesAt path (p.items.map Prod.snd ++ p.folders.map Prod.snd) ∨
         x ∈ namesAt path (s.items.map Prod.snd ++ s.folders.map Prod.snd))) := by
  intro path
  induction path with
  | nil =>
    intro p s wfp wfs x
    have hvals : ∀ (m : CMap),
        (∃ it ∈ m.items.map Prod.snd ++ m.folders.map Prod.snd, it.name = x) ↔
          ((∃ pr ∈ m.items, pr.2.name = x) ∨ (∃ pr ∈ m.folders, pr.2.name = x)) := by
      intro m
      constructor
      · rintro ⟨it, hit, hn⟩
        rcases List.mem_append.mp hit with h | h
        · rcases List.mem_map.mp h with ⟨pr, hpr, rfl⟩
          exact .inl ⟨pr, hpr, hn⟩
        · rcases List.mem_map.mp h with ⟨pr, hpr, rfl⟩
          exact .inr ⟨pr, hpr, hn⟩
      · rintro (⟨pr, hpr, hn⟩ | ⟨pr, hpr, hn⟩)
        · exact ⟨pr.2, List.mem_append_left _ (List.mem_map_of_mem _ hpr), hn⟩
        · exact ⟨pr.2, List.mem_append_right _ (List.mem_map_of_mem _ hpr), hn⟩
    rw [mem_namesAt_nil, mem_namesAt_nil, mem_namesAt_nil, hvals p, hvals s]
    constructor
    · rintro ⟨u, hu, hun⟩
      rcases (mem_mergeCollectionMaps hmode u).mp hu with
        ⟨pr, hpr, hequ⟩ | ⟨pr, hpr, hequ⟩ | ⟨pr, hpr, hproc, hequ⟩ | ⟨pr, hpr, hproc, hequ⟩
      · refine .inl (.inl ⟨pr, hpr, ?_⟩)
        rw [← hequ] at hun
        cases hl : lookupA s.items pr.1 with
        | none => rw [hl] at hun; exact hun
        | some sit => rw [hl, mergeItems_name] at hun; exact hun
      · refine .inl (.inr ⟨pr, hpr, ?_⟩)
        rw [← hequ] at hun
        cases hl : lookupA s.folders pr.1 with
        | none => rw [hl] at hun; exact hun
        | some sf => rw [hl] at hun; exact hun
      · refine .inr (.inl ⟨pr, hpr, ?_⟩)
        rw [hequ]
        exact hun
      · refine .inr (.inr ⟨pr, hpr, ?_⟩)
        rw [hequ]
        exact hun
    · rintro ((⟨pr, hpr, hn⟩ | ⟨pr, hpr, hn⟩) | (⟨pr, hpr, hn⟩ | ⟨pr, hpr, hn⟩))
      · refine ⟨_, (mem_mergeCollectionMaps hmode _).mpr (.inl ⟨pr, hpr, rfl⟩), ?_⟩
        cases hl : lookupA s.items pr.1 with
        | none => exact hn
        | some sit =>
          show (mergeItems pr.2 sit mode).name = x
          rw [mergeItems_name]; exact hn
      · refine ⟨_, (mem_mergeCollectionMaps hmode _).mpr (.inr (.inl ⟨pr, hpr, rfl⟩)), ?_⟩
        cases hl : lookupA s.folders pr.1 with
        | none => exact hn
        | some sf => exact hn
      · by_cases hpc : pr.1 ∈ processedNames p s
        · rcases mem_processedNames.mp hpc with ⟨⟨qr, hqr, hq1⟩, hsome⟩ | ⟨⟨qr, hqr, hq1⟩, hsome⟩
          · refine ⟨_, (mem_mergeCollectionMaps hmode _).mpr (.inl ⟨qr, hqr, rfl⟩), ?_⟩
            have hqname : qr.2.name = qr.1 := (wfp.1 qr hqr).1
            have hvname : pr.2.name = pr.1 := (wfs.1 pr hpr).1
            cases hl : lookupA s.items qr.1 with
            | none =>
              show qr.2.name = x
              rw [hqname, hq1, ← hvname]; exact hn
            | some sit =>
              show (mergeItems qr.2 sit mode).name = x
              rw [mergeItems_name, hqname, hq1, ← hvname]; exact hn
          · refine ⟨_, (mem_mergeCollectionMaps hmode _).mpr (.inr (.inl ⟨qr, hqr, rfl⟩)), ?_⟩
            have hqname : qr.2.name = qr.1 := (wfp.2.1 qr hqr).1
            have hvname : pr.2.name = pr.1 := (wfs.1 pr hpr).1
            cases hl : lookupA s.folders qr.1 with
            | none =>
              show qr.2.name = x
              rw [hqname, hq1, ← hvname]; exact hn
            | some sf =>
              show qr.2.name = x
              rw [hqname, hq1, ← hvname]
              exact hn
        · exact ⟨pr.2, (mem_mergeCollectionMaps hmode _).mpr
            (.inr (.inr (.inl ⟨pr, hpr, contains_eq_false_of_not_mem hpc, rfl⟩))), hn⟩
      · by_cases hpc : pr.1 ∈ processedNames p s
        · rcases mem_processedNames.mp hpc with ⟨⟨qr, hqr, hq1⟩, hsome⟩ | ⟨⟨qr, hqr, hq1⟩, hsome⟩
          · refine ⟨_, (mem_mergeCollectionMaps hmode _).mpr (.inl ⟨qr, hqr, rfl⟩), ?_⟩
            have hqname : qr.2.name = qr.1 := (wfp.1 qr hqr).1
            have hvname : pr.2.name = pr.1 := (wfs.2.1 pr hpr).1
            cases hl : lookupA s.items qr.1 with
            | none =>
              show qr.2.name = x
              rw [hqname, hq1, ← hvname]; exact hn
            | some sit =>
              show (mergeItems qr.2 sit mode).name = x
              rw [mergeItems_name, hqname, hq1, ← hvname]; exact hn
          · refine ⟨_, (mem_mergeCollectionMaps hmode _).mpr (.inr (.inl ⟨qr, hqr, rfl⟩)), ?_⟩
            have hqname : qr.2.name = qr.1 := (wfp.2.1 qr hqr).1
            have hvname : pr.2.name = pr.1 := (wfs.2.1 pr hpr).1
            cases hl : lookupA s.folders qr.1 with
            | none =>
              show qr.2.name = x
              rw [hqname, hq1, ← hvname]; exact hn
            | some sf =>
              show qr.2.name = x
              rw [hqname, hq1, ← hvname]
              exact hn
        · exact ⟨pr.2, (mem_mergeCollectionMaps hmode _).mpr
            (.inr (.inr (.inr ⟨pr, hpr, contains_eq_false_of_not_mem hpc, rfl⟩))), hn⟩
  | cons n rest ih =>
    intro p s wfp wfs x
    have hndp : (p.folders.map Prod.fst).Nodup := wfp.2.2.of_append_right
    have hnds : (s.folders.map Prod.fst).Nodup := wfs.2.2.of_append_right
    have hvalP : x ∈ namesAt (n :: rest) (p.items.map Prod.snd ++ p.folders.map Prod.snd) ↔
        ∃ pr ∈ p.folders, pr.1 = n ∧ x ∈ namesAt rest pr.2.sub := by
      rw [mem_namesAt_cons]
      constructor
      · rintro ⟨it, hit, hn1, hs1, hx⟩
        rcases List.mem_append.mp hit with h | h
        · rcases List.mem_map.mp h with ⟨pr, hpr, rfl⟩
          exact absurd (wfp.1 pr hpr).2 hs1
        · rcases List.mem_map.mp h with ⟨pr, hpr, rfl⟩
          exact ⟨pr, hpr, by rw [← (wfp.2.1 pr hpr).1, hn1], hx⟩
      · rintro ⟨pr, hpr, h1, hx⟩
        exact ⟨pr.2, List.mem_append_right _ (List.mem_map_of_mem _ hpr),
          by rw [(wfp.2.1 pr hpr).1, h1], (wfp.2.1 pr hpr).2.1, hx⟩
    have hvalS : x ∈ namesAt (n :: rest) (s.items.map Prod.snd ++ s.folders.map Prod.snd) ↔
        ∃ pr ∈ s.folders, pr.1 = n ∧ x ∈ namesAt rest pr.2.sub := by
      rw [mem_namesAt_cons]
      constructor
      · rintro ⟨it, hit, hn1, hs1, hx⟩
        rcases List.mem_append.mp hit with h | h
        · rcases List.mem_map.mp h with ⟨pr, hpr, rfl⟩
          exact absurd (wfs.1 pr hpr).2 hs1
        · rcases List.mem_map.mp h with ⟨pr, hpr, rfl⟩
          exact ⟨pr, hpr, by rw [← (wfs.2.1 pr hpr).1, hn1], hx⟩
      · rintro ⟨pr, hpr, h1, hx⟩
        exact ⟨pr.2, List.mem_append_right _ (List.mem_map_of_mem _ hpr),
          by rw [(wfs.2.1 pr hpr).1, h1], (wfs.2.1 pr hpr).2.1, hx⟩
    rw [hvalP, hvalS, mem_namesAt_cons]
    constructor
    · rintro ⟨u, hu, hun, hus, hux⟩
      rcases (mem_mergeCollectionMaps hmode u).mp hu with
        ⟨pr, hpr, hequ⟩ | ⟨pr, hpr, hequ⟩ | ⟨pr, hpr, hproc, hequ⟩ | ⟨pr, hpr, hproc, hequ⟩
      · exfalso
        apply hus
        rw [← hequ]
        cases hl : lookupA s.items pr.1 with
        | none => exact (wfp.1 pr hpr).2
        | some sit =>
          show (mergeItems pr.2 sit mode).sub = []
          rw [mergeItems_sub]; exact (wfp.1 pr hpr).2
      · cases hl : lookupA s.folders pr.1 with
        | none =>
          rw [hl] at hequ
          subst hequ
          exact .inl ⟨pr, hpr, by rw [← (wfp.2.1 pr hpr).1]; exact hun, hux⟩
        | some sf =>
          rw [hl] at hequ
          subst hequ
          have hkey : pr.1 = n := by rw [← (wfp.2.1 pr hpr).1]; exact hun
          have hsf_mem : (pr.1, sf) ∈ s.folders := lookupA_some_mem hl
          have wfpf := wfp.2.1 pr hpr
          have wfsf := wfs.2.1 _ hsf_mem
          have hih := ih (levelMap pr.2.sub) (levelMap sf.sub)
            (MapWF_levelMap wfpf.2.2) (MapWF_levelMap wfsf.2.2) x
          rw [levelMap_values_names (levelUnique_names_nodup wfpf.2.2) rest x,
            levelMap_values_names (levelUnique_names_nodup wfsf.2.2) rest x] at hih
          rcases hih.mp hux with hx1 | hx2
          · exact .inl ⟨pr, hpr, hkey, hx1⟩
          · exact .inr ⟨(pr.1, sf), hsf_mem, hkey, hx2⟩
      · exfalso
        apply hus
        rw [← hequ]
        exact (wfs.1 pr hpr).2
      · subst hequ
        exact .inr ⟨pr, hpr, by rw [← (wfs.2.1 pr hpr).1]; exact hun, hux⟩
    · rintro (⟨pr, hpr, hk, hx⟩ | ⟨pr, hpr, hk, hx⟩)
      · cases hl : lookupA s.folders pr.1 with
        | none =>
          refine ⟨pr.2, (mem_mergeCollectionMaps hmode _).mpr
            (.inr (.inl ⟨pr, hpr, by rw [hl]⟩)), ?_, (wfp.2.1 pr hpr).2.1, hx⟩
          rw [(wfp.2.1 pr hpr).1, hk]
        | some sf =>
          have wfpf := wfp.2.1 pr hpr
          have wfsf := wfs.2.1 _ (lookupA_some_mem hl)
          have hih := ih (levelMap pr.2.sub) (levelMap sf.sub)
            (MapWF_levelMap wfpf.2.2) (MapWF_levelMap wfsf.2.2) x
          rw [levelMap_values_names (levelUnique_names_nodup wfpf.2.2) rest x,
            levelMap_values_names (levelUnique_names_nodup wfsf.2.2) rest x] at hih
          have hxin := hih.mpr (.inl hx)
          refine ⟨mergedFolder pr.2 (mergeCollectionMaps (levelMap pr.2.sub) (levelMap sf.sub) mode),
            (mem_mergeCollectionMaps hmode _).mpr (.inr (.inl ⟨pr, hpr, by rw [hl]⟩)),
            ?_, namesAt_nonempty hxin, hxin⟩
          show pr.2.name = n
          rw [wfpf.1, hk]
      · cases hp : lookupA p.folders pr.1 with
        | some pf =>
          have hpf_mem : (pr.1, pf) ∈ p.folders := lookupA_some_mem hp
          have hs_self : lookupA s.folders pr.1 = some pr.2 :=
            lookupA_eq_of_mem_nodup hnds hpr
          have wfpf := wfp.2.1 _ hpf_mem
          have wfsf := wfs.2.1 pr hpr
          have hih := ih (levelMap pf.sub) (levelMap pr.2.sub)
            (MapWF_levelMap wfpf.2.2) (MapWF_levelMap wfsf.2.2) x
          rw [levelMap_values_names (levelUnique_names_nodup wfpf.2.2) rest x,
            levelMap_values_names (levelUnique_names_nodup wfsf.2.2) rest x] at hih
          have hxin := hih.mpr (.inr hx)
          refine ⟨mergedFolder pf (mergeCollectionMaps (levelMap pf.sub) (levelMap pr.2.sub) mode),
            (mem_mergeCollectionMaps hmode _).mpr
              (.inr (.inl ⟨(pr.1, pf), hpf_mem, by rw [show lookupA s.folders (pr.1, pf).1 = some pr.2 from hs_self]⟩)),
            ?_, namesAt_nonempty hxin, hxin⟩
          show pf.name = n
          rw [wfpf.1, hk]
        | none =>
          have hnotproc : pr.1 ∉ processedNames p s := by
            intro hpc
            rcases mem_processedNames.mp hpc with ⟨⟨qr, hqr, hq1⟩, hsome⟩ | ⟨⟨qr, hqr, hq1⟩, hsome⟩
            · rcases Option.isSome_iff_exists.mp hsome with ⟨w, hw⟩
              have hw_mem : (pr.1, w) ∈ s.items := lookupA_some_mem hw
              have h1 : pr.1 ∈ s.items.map Prod.fst := by
                simpa using List.mem_map_of_mem Prod.fst hw_mem
              exact List.disjoint_of_nodup_append wfs.2.2 h1
                (List.mem_map_of_mem Prod.fst hpr)
            · exact (lookupA_eq_none.mp hp) qr hqr hq1
          refine ⟨pr.2, (mem_mergeCollectionMaps hmode _).mpr
              (.inr (.inr (.inr ⟨pr, hpr, contains_eq_false_of_not_mem hnotproc, rfl⟩))),
              ?_, (wfs.2.1 pr hpr).2.1, hx⟩
          rw [(wfs.2.1 pr hpr).1, hk]

/--
Claim C1: for inputs satisfying the data-model sibling-name-uniqueness
invariant, under both preserve policies, the set of node names of the
merged tree at every level (every path of folder names) is the union of
the two inputs' name sets at that level — no node of either input
disappears.
-/
theorem c1_names_union (I A : List Item) (mode : MergeMode) (hmode : mode ≠ .replace)
    (hI : levelUnique I = true) (hA : levelUnique A = true)
    (path : List String) (x : String) :
    x ∈ namesAt path (mergeTrees I A mode) ↔
      (x ∈ namesAt path I ∨ x ∈ namesAt path A) := by
  have hA2 : levelUnique (tagTrees "postman" A) = true := by
    rw [levelUnique_tagTrees]; exact hA
  have hI2 : levelUnique (tagTrees "swagger" I) = true := by
    rw [levelUnique_tagTrees]; exact hI
  have h := namesAt_merge mode hmode path
    (buildMapL "postman" A) (buildMapL "swagger" I)
    (MapWF_levelMap hA2) (MapWF_levelMap hI2) x
  simp only [buildMapL] at h
  rw [levelMap_values_names (levelUnique_names_nodup hA2) path x,
    levelMap_values_names (levelUnique_names_nodup hI2) path x,
    namesAt_tagTrees, namesAt_tagTrees] at h
  rw [show mergeTrees I A mode =
    mergeCollectionMaps (levelMap (tagTrees "postman" A)) (levelMap (tagTrees "swagger" I)) mode
    from rfl, h]
  exact or_comm

/-- Witness for c1_names_union: two folders named U merge into one, and a
name present only inside the authoritative U is still reachable there. -/
theorem c1_names_union_witness :
    "y" ∈ namesAt ["U"] (mergeTrees [folder0 "U" [leaf0 "x"]] [folder0 "U" [leaf0 "y"]]
        .preservePostman) ↔
      ("y" ∈ namesAt ["U"] [folder0 "U" [leaf0 "x"]] ∨
       "y" ∈ namesAt ["U"] [folder0 "U" [leaf0 "y"]]) :=
  c1_names_union [folder0 "U" [leaf0 "x"]] [folder0 "U" [leaf0 "y"]] .preservePostman
    (by decide) (by decide) (by decide) ["U"] "y"

/-! ### Claim C9: mutation of caller-owned nodes -/

/-- How one caller-owned node may evolve during a merge call: only the
provenance tag and the id field can change, and the id only to the node's
own stable identifier. -/
def ItemEvol (orig cur : Item) : Prop :=
  ∃ src' id',
    cur = .mk orig.name { orig.attrs with src := src', id := id' } orig.sub ∧
    (id' = orig.attrs.id ∨ id' = orig.attrs.pid)

/-- How the caller's memory may evolve: same length, every cell related by
ItemEvol. -/
def StoreEvol (orig cur : List Item) : Prop :=
  orig.length = cur.length ∧
  ∀ (a : Nat) (o c : Item), orig.get? a = some o → cur.get? a = some c → ItemEvol o c

theorem ItemEvol_refl (it : Item) : ItemEvol it it := by
  cases it with
  | mk n a sub => exact ⟨a.src, a.id, rfl, .inl rfl⟩

theorem ItemEvol_trans {o m c : Item} (h1 : ItemEvol o m) (h2 : ItemEvol m c) :
    ItemEvol o c := by
  obtain ⟨n, a, sub⟩ := o
  rcases h1 with ⟨s1, i1, rfl, hi1⟩
  rcases h2 with ⟨s2, i2, rfl, hi2⟩
  simp only [Item.name, Item.attrs, Item.sub] at hi1 hi2
  refine ⟨s2, i2, rfl, ?_⟩
  simp only [Item.attrs]
  rcases hi2 with h | h
  · rcases hi1 with h' | h'
    · exact .inl (h.trans h')
    · exact .inr (h.trans h')
  · exact .inr h

theorem StoreEvol_refl (st : List Item) : StoreEvol st st :=
  ⟨rfl, fun a o c ho hc => by rw [ho] at hc; cases hc; exact ItemEvol_refl o⟩

theorem StoreEvol_trans {o m c : List Item} (h1 : StoreEvol o m) (h2 : StoreEvol m c) :
    StoreEvol o c := by
  refine ⟨h1.1.trans h2.1, fun a x z hx hz => ?_⟩
  have hlt : a < m.length := by
    rw [← h1.1]
    obtain ⟨hl, -⟩ := List.get?_eq_some.mp hx
    exact hl
  have hy : m.get? a = some (m.get ⟨a, hlt⟩) := List.get?_eq_some.mpr ⟨hlt, rfl⟩
  exact ItemEvol_trans (h1.2 a x _ hx hy) (h2.2 a _ z hy hz)

theorem StoreEvol_set {st : List Item} {a : Nat} {o c : Item}
    (ho : st.get? a = some o) (hev : ItemEvol o c) : StoreEvol st (st.set a c) := by
  refine ⟨(List.length_set st a c).symm, fun b x z hx hz => ?_⟩
  by_cases hab : a = b
  · subst hab
    rw [ho] at hx
    cases hx
    rw [List.get?_eq_getElem?] at hz ho
    rw [List.getElem?_set_self' ] at hz
    rw [ho] at hz
    cases hz
    exact hev
  · rw [List.get?_eq_getElem?, List.getElem?_set_ne hab, ← List.get?_eq_getElem?] at hz
    rw [hx] at hz
    cases hz
    exact ItemEvol_refl x

theorem tagAt_evol (source : String) (st : List Item) (a : Nat) :
    StoreEvol st (tagAt source st a) := by
  simp only [tagAt]
  cases h : st.get? a with
  | none => exact StoreEvol_refl st
  | some it =>
    cases it with
    | mk n a1 sub =>
      exact StoreEvol_set h ⟨some source, a1.id, rfl, .inl rfl⟩

theorem tagAll_evol (source : String) :
    ∀ (addrs : List Nat) (st : List Item), StoreEvol st (tagAll source st addrs) := by
  intro addrs
  induction addrs with
  | nil => intro st; exact StoreEvol_refl st
  | cons a rest ih =>
    intro st
    exact StoreEvol_trans (tagAt_evol source st a) (ih (tagAt source st a))

theorem processIdsStore_evol :
    ∀ (outs : List ORef) (st : List Item), StoreEvol st (processIdsStore st outs) := by
  intro outs
  induction outs with
  | nil => intro st; exact StoreEvol_refl st
  | cons o rest ih =>
    intro st
    refine StoreEvol_trans (o := st) ?_ (ih _)
    cases o with
    | fresh it => exact StoreEvol_refl st
    | shared a =>
      show StoreEvol st
        (match st.get? a with
          | some (.mk n at1 sub) =>
            if truthyStr at1.pid then st.set a (.mk n { at1 with id := at1.pid } sub) else st
          | none => st)
      cases h : st.get? a with
      | none => exact StoreEvol_refl st
      | some it =>
        cases it with
        | mk n a1 sub =>
          show StoreEvol st
            (if truthyStr a1.pid then st.set a (.mk n { a1 with id := a1.pid } sub) else st)
          by_cases ht : truthyStr a1.pid
          · rw [if_pos ht]
            exact StoreEvol_set h ⟨a1.src, a1.pid, rfl, .inr rfl⟩
          · rw [if_neg ht]
            exact StoreEvol_refl st

/--
Claim C9, as stated, is false: the identifier-normalization pass writes
id := _postman_id in place on input nodes that are pushed into the output
by reference, so a caller-owned node's id field changes (here from "old"
to "P").
-/
theorem c9_counterexample :
    ((mergeStoreFlat [Item.mk "e" ⟨some "P", some "old", .undef, none, none, none, false⟩ []]
        [] [0] .preservePostman).1.map (fun it => it.attrs.id)) = [some "P"] ∧
      (some "P" : Option String) ≠ some "old" := by
  decide

/--
Claim C9 (amended): in the explicit-store model of the pipeline (flat
trees, sharing made explicit), a merge call leaves every caller-owned
input node unchanged except that its provenance tag may be set and that
its id may be overwritten with the node's own _postman_id (by the
identifier-normalization pass, on nodes shared into the output); the name,
children, request, response, description and _postman_id of every input
node survive every call unchanged.
-/
theorem c9_input_mutation (store : List Item) (sAddrs pAddrs : List Nat) (mode : MergeMode)
    (a : Nat) (n : String) (at1 : Attrs) (sub : List Item)
    (h : store.get? a = some (.mk n at1 sub)) :
    ∃ src' id',
      (mergeStoreFlat store sAddrs pAddrs mode).1.get? a =
        some (.mk n { at1 with src := src', id := id' } sub) ∧
      (id' = at1.id ∨ id' = at1.pid) := by
  have hev : StoreEvol store (mergeStoreFlat store sAddrs pAddrs mode).1 := by
    refine StoreEvol_trans (tagAll_evol "swagger" sAddrs store) ?_
    refine StoreEvol_trans (tagAll_evol "postman" pAddrs _) ?_
    exact processIdsStore_evol _ _
  have hlt : a < (mergeStoreFlat store sAddrs pAddrs mode).1.length := by
    rw [← hev.1]
    obtain ⟨hl, -⟩ := List.get?_eq_some.mp h
    exact hl
  have hc : (mergeStoreFlat store sAddrs pAddrs mode).1.get? a =
      some ((mergeStoreFlat store sAddrs pAddrs mode).1.get ⟨a, hlt⟩) :=
    List.get?_eq_some.mpr ⟨hlt, rfl⟩
  have := hev.2 a _ _ h hc
  rcases this with ⟨src', id', heq, hid⟩
  refine ⟨src', id', ?_, hid⟩
  rw [hc, heq]
  rfl

/-- Witness for c9_input_mutation: the node of the counterexample store
evolves only in its src and id fields. -/
theorem c9_input_mutation_witness :
    ∃ src' id',
      (mergeStoreFlat [Item.mk "e" ⟨some "P", some "old", .undef, none, none, none, false⟩ []]
          [] [0] .preservePostman).1.get? 0 =
        some (.mk "e" ⟨some "P", id', .undef, none, none, src', false⟩ []) ∧
      (id' = some "old" ∨ id' = some "P") :=
  c9_input_mutation
    [Item.mk "e" ⟨some "P", some "old", .undef, none, none, none, false⟩ []]
    [] [0] .preservePostman 0 "e" ⟨some "P", some "old", .undef, none, none, none, false⟩ []
    (by decide)

